import Mathlib

/-!
Verification of the cryptographic core of the threshold LWE decryption
protocol (Rust sources under `src/mpc/`).

Shallow embedding conventions:
* `BigInt` values are embedded as `ℤ`.
* `mod_floor` with a positive modulus returns a value in `[0, modulus)`;
  for a positive modulus Lean's `%` on `ℤ` (`Int.emod`) computes the same
  function, so `x.mod_floor(&q)` is embedded as `x % q` (all moduli in the
  source are powers of two, hence positive).
* Rust `div_rem` is truncated division: `Int.tdiv` / `Int.tmod`.
* `DVector` / `DMatrix` are embedded as `ℕ`-indexed functions together with
  an explicit length, and sums over them as `Finset.range` sums.
* Randomness drawn from `thread_rng` is made an explicit parameter
  (a stream `ℕ → ℤ`); theorems quantify over every stream, which covers
  every outcome of the samplers.
-/

/-- Dot product of two vectors of the given length
(`nalgebra`'s `DVector::dot`). -/
def dotR (len : ℕ) (xs ys : ℕ → ℤ) : ℤ :=
  ∑ c ∈ Finset.range len, xs c * ys c

/-- `AdditiveSecretSharing::share` (additive_sharing.rs): the first
`num_shares - 1` shares are the sampled values `rand 0, …, rand (n-2)`;
the last share is `(secret - sum_of_sampled) mod_floor 2^e`. -/
def share (secret : ℤ) (num_shares e : ℕ) (rand : ℕ → ℤ) : ℕ → ℤ :=
  fun i =>
    if i < num_shares - 1 then rand i
    else (secret - ∑ j ∈ Finset.range (num_shares - 1), rand j) % 2 ^ e

/-- `AdditiveSecretSharing::reveal` (additive_sharing.rs): sum the shares
and floor-mod by `2^e`. -/
def reveal (shares : ℕ → ℤ) (num_shares e : ℕ) : ℤ :=
  (∑ i ∈ Finset.range num_shares, shares i) % 2 ^ e

/-- `BaseDecomposition::decompose` (base_decomposition.rs): repeated
`div_rem` by the base while the value is positive, least significant digit
first.  The source loops forever when `base < 2`; the `2 ≤ base` guard is a
termination device only and every theorem below assumes `2 ≤ base`.  For
`0 < x` and `2 ≤ base`, truncated and euclidean division agree, so `%` and
`/` faithfully embed `div_rem` here. -/
def decompose (base : ℤ) (x : ℤ) : List ℤ :=
  if h : 0 < x ∧ 2 ≤ base then x % base :: decompose base (x / base) else []
termination_by x.toNat
decreasing_by
  have h1 : x / base < x := by
    rw [Int.ediv_lt_iff_lt_mul (by omega)]
    nlinarith [h.1, h.2]
  have h2 : 0 ≤ x / base := Int.ediv_nonneg (by omega) (by omega)
  omega

/-- `round_div` (utils.rs): truncated `div_rem`, then round the quotient
outward when the absolute remainder exceeds half the divisor, and on the
exact tie only when the remainder is positive. -/
def round_div (x q : ℤ) : ℤ :=
  let quotient := Int.tdiv x q
  let remainder := Int.tmod x q
  let double_remainder := remainder * 2
  if |double_remainder| > q ∨ (|double_remainder| = q ∧ 0 < remainder) then
    if 0 < remainder then quotient + 1 else quotient - 1
  else
    quotient

/-! ### Helper lemmas about `share` and `reveal` -/

theorem sum_share (x : ℤ) (N e : ℕ) (rand : ℕ → ℤ) (hN : 1 ≤ N) :
    (∑ i ∈ Finset.range N, share x N e rand i) =
      (∑ j ∈ Finset.range (N - 1), rand j) +
        (x - ∑ j ∈ Finset.range (N - 1), rand j) % 2 ^ e := by
  obtain ⟨M, rfl⟩ : ∃ M, N = M + 1 := ⟨N - 1, by omega⟩
  rw [Finset.sum_range_succ]
  have hlast : share x (M + 1) e rand M =
      (x - ∑ j ∈ Finset.range M, rand j) % 2 ^ e := by
    simp [share]
  have hfirst : ∀ i ∈ Finset.range M, share x (M + 1) e rand i = rand i := by
    intro i hi
    have : i < M := Finset.mem_range.mp hi
    simp [share, this]
  rw [Finset.sum_congr rfl hfirst, hlast]
  simp

theorem sum_share_modEq (x : ℤ) (N e : ℕ) (rand : ℕ → ℤ) (hN : 1 ≤ N) :
    (∑ i ∈ Finset.range N, share x N e rand i) ≡ x [ZMOD (2 ^ e : ℕ)] := by
  have h := sum_share x N e rand hN
  unfold Int.ModEq
  rw [h]
  push_cast
  conv_rhs => rw [show x = (∑ j ∈ Finset.range (N - 1), rand j) +
    (x - ∑ j ∈ Finset.range (N - 1), rand j) by ring]
  rw [Int.add_emod, Int.add_emod (∑ j ∈ Finset.range (N - 1), rand j),
    Int.emod_emod_of_dvd _ dvd_rfl]

/-- Claim C2: revealing the shares of `x` over the ring `2^e` gives
`x mod 2^e` (floor-mod, in `[0, 2^e)`), for every secret `x`, every
`N ≥ 2`, every `e > 0` and every outcome of the random sampling. -/
theorem share_reveal_roundtrip (x : ℤ) (N e : ℕ) (rand : ℕ → ℤ)
    (hN : 2 ≤ N) (he : 1 ≤ e) :
    reveal (share x N e rand) N e = x % 2 ^ e := by
  unfold reveal
  have h := sum_share_modEq x N e rand (by omega)
  have h2 : ((2 : ℕ) ^ e : ℤ) = (2 : ℤ) ^ e := by push_cast; ring
  simpa [h2] using h

/-- Witness for C2 at the spec's boundary scenario 2:
`share(-5, N=5, e=8)` reveals to `251 = -5 mod 256`. -/
theorem share_reveal_roundtrip_witness :
    2 ≤ 5 ∧ 1 ≤ 8 ∧ reveal (share (-5) 5 8 fun _ => 3) 5 8 = 251 := by
  refine ⟨by decide, by decide, ?_⟩
  rw [share_reveal_roundtrip (-5) 5 8 (fun _ => 3) (by decide) (by decide)]
  decide

/-! ### Base decomposition -/

theorem decompose_zero (base : ℤ) : decompose base 0 = [] := by
  rw [decompose]; norm_num

theorem decompose_cons (base x : ℤ) (hx : 0 < x) (hb : 2 ≤ base) :
    decompose base x = x % base :: decompose base (x / base) := by
  rw [decompose]
  simp [hx, hb]

theorem decompose_sum_aux (base : ℤ) (hb : 2 ≤ base) :
    ∀ fuel : ℕ, ∀ x : ℤ, 0 ≤ x → x.toNat ≤ fuel →
      (∑ j ∈ Finset.range (decompose base x).length,
          base ^ j * (decompose base x).getD j 0) = x ∧
      (∀ j < (decompose base x).length,
          0 ≤ (decompose base x).getD j 0 ∧ (decompose base x).getD j 0 < base) := by
  intro fuel
  induction fuel with
  | zero =>
      intro x hx hle
      have hx0 : x = 0 := by omega
      subst hx0
      rw [decompose_zero]
      simp
  | succ n ih =>
      intro x hx hle
      rcases eq_or_lt_of_le hx with hx0 | hxpos
      · rw [← hx0, decompose_zero]
        simp
      · have hdiv_nonneg : 0 ≤ x / base := Int.ediv_nonneg hx (by omega)
        have hdiv_lt : x / base < x := by
          rw [Int.ediv_lt_iff_lt_mul (by omega)]
          nlinarith
        obtain ⟨ihsum, ihdig⟩ := ih (x / base) hdiv_nonneg (by omega)
        rw [decompose_cons base x hxpos hb]
        constructor
        · rw [List.length_cons, Finset.sum_range_succ']
          have hshift : ∀ j ∈ Finset.range (decompose base (x / base)).length,
              base ^ (j + 1) * (x % base :: decompose base (x / base)).getD (j + 1) 0 =
                base * (base ^ j * (decompose base (x / base)).getD j 0) := by
            intro j _
            simp [List.getD_cons_succ]
            ring
          rw [Finset.sum_congr rfl hshift, ← Finset.mul_sum, ihsum]
          simp only [pow_zero, one_mul, List.getD_cons_zero]
          exact Int.ediv_add_emod x base
        · intro j hj
          cases j with
          | zero =>
              simp only [List.getD_cons_zero]
              exact ⟨Int.emod_nonneg x (by omega), Int.emod_lt_of_pos x (by omega)⟩
          | succ j =>
              simp only [List.getD_cons_succ]
              exact ihdig j (by simpa using hj)

/-- Claim C10: for `x ≥ 0` and `base ≥ 2`, the little-endian digit vector
of `decompose` recomposes to `x` with every digit in `[0, base)`, and
`decompose base 0 = []`. -/
theorem decompose_roundtrip (base x : ℤ) (hb : 2 ≤ base) (hx : 0 ≤ x) :
    (∑ j ∈ Finset.range (decompose base x).length,
        base ^ j * (decompose base x).getD j 0) = x ∧
    (∀ j < (decompose base x).length,
        0 ≤ (decompose base x).getD j 0 ∧ (decompose base x).getD j 0 < base) ∧
    decompose base 0 = [] := by
  obtain ⟨h1, h2⟩ := decompose_sum_aux base hb x.toNat x hx (le_refl _)
  exact ⟨h1, h2, decompose_zero base⟩

/-- Witness for C10 at the spec's boundary scenario 4 (`x = 13`, base 2). -/
theorem decompose_roundtrip_witness :
    (2 : ℤ) ≤ 2 ∧ (0 : ℤ) ≤ 13 ∧
      (∑ j ∈ Finset.range (decompose 2 13).length,
          2 ^ j * (decompose 2 13).getD j 0) = 13 ∧
      decompose 2 0 = [] :=
  ⟨by decide, by decide, (decompose_roundtrip 2 13 (by decide) (by decide)).1,
    (decompose_roundtrip 2 13 (by decide) (by decide)).2.2⟩

/-! ### `round_div` -/

theorem neg_tmod (a b : ℤ) : Int.tmod (-a) b = - Int.tmod a b := by
  rw [Int.tmod_def, Int.tmod_def, Int.neg_tdiv]
  ring

theorem tmod_bounds (x q : ℤ) (hq : 0 < q) :
    -q < Int.tmod x q ∧ Int.tmod x q < q := by
  refine ⟨?_, Int.tmod_lt_of_pos x hq⟩
  rcases le_or_lt 0 x with hx0 | hx0
  · have := Int.tmod_nonneg q hx0
    omega
  · have h1 : Int.tmod x q = - Int.tmod (-x) q := by
      rw [← neg_tmod, neg_neg]
    have h2 := Int.tmod_lt_of_pos (-x) hq
    omega

/-- Claim C7 (amended): for `q > 0`, `round_div x q` is the integer nearest
to `x / q` with ties rounded toward `+∞`; equivalently the residual
`x - q * round_div x q` always lies in `[-q/2, q/2)`.  Positive ties round
away from zero, negative ties round toward zero. -/
theorem round_div_nearest (x q : ℤ) (hq : 0 < q) :
    -q ≤ 2 * (x - q * round_div x q) ∧ 2 * (x - q * round_div x q) < q := by
  have hx := Int.tmod_add_tdiv x q
  have hb := tmod_bounds x q hq
  unfold round_div
  by_cases hcond : |Int.tmod x q * 2| > q ∨ (|Int.tmod x q * 2| = q ∧ 0 < Int.tmod x q)
  · rw [if_pos hcond]
    by_cases hRpos : 0 < Int.tmod x q
    · rw [if_pos hRpos]
      have hv : x - q * (Int.tdiv x q + 1) = Int.tmod x q - q := by
        linear_combination -hx
      rw [hv]
      rcases abs_cases (Int.tmod x q * 2) with h | h <;> omega
    · rw [if_neg hRpos]
      have hv : x - q * (Int.tdiv x q - 1) = Int.tmod x q + q := by
        linear_combination -hx
      rw [hv]
      rcases abs_cases (Int.tmod x q * 2) with h | h <;> omega
  · rw [if_neg hcond]
    have hv : x - q * Int.tdiv x q = Int.tmod x q := by
      linear_combination -hx
    rw [hv]
    push_neg at hcond
    rcases abs_cases (Int.tmod x q * 2) with h | h <;> omega

/-- Witness for the amended C7 at `x = 7`, `q = 3`. -/
theorem round_div_nearest_witness :
    (0 : ℤ) < 3 ∧
      (-3 ≤ 2 * (7 - 3 * round_div 7 3) ∧ 2 * (7 - 3 * round_div 7 3) < 3) :=
  ⟨by decide, round_div_nearest 7 3 (by decide)⟩

/-- Counterexample to C7 as stated: at the tie `x = -6`, `q = 4`
(`x / q = -1.5`, `|2r| = q` with `r = -2`), rounding away from zero would
give `-2`, but `round_div` returns `-1` (it rounds the negative tie toward
zero). -/
theorem round_div_negative_tie_counterexample :
    round_div (-6) 4 = -1 ∧ ((-1 : ℤ) ≠ -2) := by
  constructor
  · decide
  · decide

/-! ### LWE scheme -/

/-- `LweScheme::encrypt` (lwe_scheme.rs), with the sampled vector `a` and
error `e` made explicit: returns the second ciphertext component
`b = (-<a,sk> + e + (q/p)*m) mod_floor q`.  The source samples `a`
uniformly in `[0,q)^dimension` and — via `UniformBigInt::new_inclusive` —
`e` uniformly in the closed interval `[0, q/(2p)]`. -/
def LweScheme.encrypt_b (p_exponent q_exponent dimension : ℕ)
    (sk a : ℕ → ℤ) (e m : ℤ) : ℤ :=
  (-(dotR dimension a sk) + e +
      ((2 ^ q_exponent : ℤ) / 2 ^ p_exponent) * m) % 2 ^ q_exponent

/-- `LweScheme::decrypt` (lwe_scheme.rs): `m1 = <(a,b),(sk,1)> mod q`,
`m2 = m1 + (q/(2p) mod q)` (the source floor-mods only the rounding offset,
not the sum), then an arithmetic right shift by `q_exponent - p_exponent`;
on the non-negative `m2` the shift is floor division by
`2^(q_exponent - p_exponent)`. -/
def LweScheme.decrypt (p_exponent q_exponent dimension : ℕ)
    (sk a : ℕ → ℤ) (b : ℤ) : ℤ :=
  ((dotR dimension a sk + b) % 2 ^ q_exponent +
      ((2 ^ q_exponent : ℤ) / (2 ^ p_exponent * 2)) % 2 ^ q_exponent) /
    2 ^ (q_exponent - p_exponent)

/-- `LweScheme::new` (lwe_scheme.rs): the public vector
`b = -(A*sk) + e`, which the source then reduces entrywise with
`mod_floor(&p)` — the plaintext modulus, not the ciphertext modulus `q`
claimed by its own comment. -/
def LweScheme.keygen_b (p_exponent dimension : ℕ)
    (sk : ℕ → ℤ) (bigA : ℕ → ℕ → ℤ) (e : ℕ → ℤ) : ℕ → ℤ :=
  fun row => (-(dotR dimension (bigA row) sk) + e row) % 2 ^ p_exponent

theorem pow_int_ediv_pow (k m : ℕ) (h : m ≤ k) :
    (2 ^ k : ℤ) / 2 ^ m = 2 ^ (k - m) := by
  have hsplit : (2 ^ k : ℤ) = 2 ^ (k - m) * 2 ^ m := by
    rw [← pow_add]
    congr 1
    omega
  rw [hsplit, Int.mul_ediv_cancel _ (by positivity)]

/-- Decryption is correct whenever the error is strictly below `q/(2p)`:
the statement the spec makes, which the inclusive sampler violates only at
the right endpoint. -/
theorem lwe_decrypt_encrypt_exact (p_exponent q_exponent dimension : ℕ)
    (sk a : ℕ → ℤ) (e m : ℤ) (hpq : p_exponent < q_exponent)
    (he0 : 0 ≤ e) (he1 : 2 * e < 2 ^ (q_exponent - p_exponent))
    (hm0 : 0 ≤ m) (hm1 : m < 2 ^ p_exponent) :
    LweScheme.decrypt p_exponent q_exponent dimension sk a
      (LweScheme.encrypt_b p_exponent q_exponent dimension sk a e m) = m := by
  unfold LweScheme.decrypt LweScheme.encrypt_b
  set l := q_exponent - p_exponent with hl
  have hl1 : 1 ≤ l := by omega
  have hqp : (2 ^ q_exponent : ℤ) / 2 ^ p_exponent = 2 ^ l := pow_int_ediv_pow _ _ (by omega)
  have hq2p : (2 ^ q_exponent : ℤ) / (2 ^ p_exponent * 2) = 2 ^ (l - 1) := by
    have h2 : (2 ^ p_exponent * 2 : ℤ) = 2 ^ (p_exponent + 1) := by ring
    have h3 : q_exponent - (p_exponent + 1) = l - 1 := by omega
    rw [h2, pow_int_ediv_pow _ _ (by omega), h3]
  have hLq : (2 ^ l : ℤ) * 2 ^ p_exponent = 2 ^ q_exponent := by
    rw [← pow_add]
    congr 1
    omega
  have hhalf : (2 : ℤ) ^ (l - 1) * 2 = 2 ^ l := by
    have h3 : l - 1 + 1 = l := by omega
    rw [← pow_succ, h3]
  rw [hqp, hq2p]
  have hu : (dotR dimension a sk +
      (-(dotR dimension a sk) + e + 2 ^ l * m) % 2 ^ q_exponent) % 2 ^ q_exponent =
      (e + 2 ^ l * m) % 2 ^ q_exponent := by
    rw [Int.add_emod_emod]
    congr 1
    ring
  have hrange : 0 ≤ e + 2 ^ l * m ∧ e + 2 ^ l * m < 2 ^ q_exponent := by
    constructor
    · have : (0 : ℤ) ≤ 2 ^ l * m := by positivity
      omega
    · have h1 : 2 ^ l * m ≤ 2 ^ l * (2 ^ p_exponent - 1) := by
        have : (0 : ℤ) < 2 ^ l := by positivity
        nlinarith
      nlinarith [hLq, he1, pow_pos (show (0:ℤ) < 2 by norm_num) l]
  have hhalf_lt : (2 : ℤ) ^ (l - 1) < 2 ^ q_exponent := by
    have hp : (0 : ℤ) < 2 ^ p_exponent := by positivity
    nlinarith [hhalf, hLq, pow_pos (show (0 : ℤ) < 2 by norm_num) (l - 1)]
  rw [hu, Int.emod_eq_of_lt hrange.1 hrange.2,
    Int.emod_eq_of_lt (by positivity) hhalf_lt]
  have hsplit : e + 2 ^ l * m + 2 ^ (l - 1) = (e + 2 ^ (l - 1)) + m * 2 ^ l := by ring
  rw [hsplit, Int.add_mul_ediv_right _ _ (by positivity)]
  have hsmall : (e + 2 ^ (l - 1)) / 2 ^ l = 0 := by
    apply Int.ediv_eq_zero_of_lt
    · positivity
    · omega
  rw [hsmall]
  ring

/-- Claim C3 (code bug witness): `encrypt` samples its error with
`UniformBigInt::new_inclusive(0, q/(2p))`, so the boundary outcome
`e = q/(2p)` is reachable; at `k = 32`, `m_bits = 1`, dimension `1024`,
plaintext `0` and error `e = 2^30 = q/(2p)`, decryption of the encryption
returns `1`, not `0`. -/
theorem lwe_boundary_noise_failure :
    (0 : ℤ) ≤ 2 ^ 30 ∧ (2 ^ 30 : ℤ) ≤ 2 ^ 32 / (2 ^ 1 * 2) ∧
    LweScheme.decrypt 1 32 1024 (fun _ => 0) (fun _ => 0)
      (LweScheme.encrypt_b 1 32 1024 (fun _ => 0) (fun _ => 0) (2 ^ 30) 0) = 1 := by
  refine ⟨by norm_num, by norm_num, ?_⟩
  have hdot : dotR 1024 (fun _ => (0 : ℤ)) (fun _ => (0 : ℤ)) = 0 := by
    simp [dotR]
  unfold LweScheme.decrypt LweScheme.encrypt_b
  rw [hdot]
  norm_num

/-! ### Preprocessed gate tables -/

/-- `SignFunction::apply` (preprocessed_gate.rs): the sign of
`value - secret` in `{-1, 0, 1}`. -/
def SignFunction.apply (value secret : ℤ) : ℤ :=
  (value - secret).sign

/-- `LessThanZeroFunction::apply` (preprocessed_gate.rs): `1` when
`(value - secret) mod_floor modulo` is at least `modulo >> 1`, else `0`. -/
def LessThanZeroFunction.apply (modulo value secret : ℤ) : ℤ :=
  if modulo / 2 ≤ (value - secret) % modulo then 1 else 0

/-- `PreprocessedGate::build` (preprocessed_gate.rs): row `row` of the
truth table is the additive sharing of `f(row, secret)` over ring
`2^field_exponent`; entry `(row, i)` is party `i`'s share.  The source
materialises exactly `num_rows` rows; theorems below only index rows
`< num_rows`. -/
def PreprocessedGate.build (f : ℤ → ℤ → ℤ) (secret : ℤ)
    (num_parties num_rows field_exponent : ℕ) (rand : ℕ → ℕ → ℤ) :
    ℕ → ℕ → ℤ :=
  fun row i =>
    if row < num_rows then
      share (f row secret) num_parties field_exponent (rand row) i
    else 0

/-- Claim C8: for every function `f`, secret, `N ≥ 2` parties, `R` rows and
share exponent `e`, revealing row `y < R` of the built gate table gives
`f(y, secret) mod 2^e`; in particular for the `LessThanZero` gate with
modulus `D` (and a non-trivial share ring, `e ≥ 1`) the revealed value is
exactly `1` when `(y - s) mod D ≥ D/2` and `0` otherwise. -/
theorem preprocessed_gate_reveal (f : ℤ → ℤ → ℤ) (secret : ℤ)
    (N R e : ℕ) (rand : ℕ → ℕ → ℤ) (hN : 2 ≤ N) (y : ℕ) (hy : y < R) :
    reveal (PreprocessedGate.build f secret N R e rand y) N e =
      f y secret % 2 ^ e ∧
    (∀ D s : ℤ, 1 ≤ e →
      reveal (PreprocessedGate.build (LessThanZeroFunction.apply D) s N R e rand y) N e =
        LessThanZeroFunction.apply D y s) := by
  have hgen : ∀ g : ℤ → ℤ → ℤ, ∀ s : ℤ,
      reveal (PreprocessedGate.build g s N R e rand y) N e = g y s % 2 ^ e := by
    intro g s
    unfold reveal PreprocessedGate.build
    have hsum : (∑ i ∈ Finset.range N,
        (if y < R then share (g y s) N e (rand y) i else 0)) =
        ∑ i ∈ Finset.range N, share (g y s) N e (rand y) i := by
      apply Finset.sum_congr rfl
      intro i _
      rw [if_pos hy]
    rw [hsum]
    have h := sum_share_modEq (g y s) N e (rand y) (by omega)
    have h2 : ((2 : ℕ) ^ e : ℤ) = (2 : ℤ) ^ e := by push_cast; ring
    simpa [h2] using h
  refine ⟨hgen f secret, ?_⟩
  intro D s he
  rw [hgen (LessThanZeroFunction.apply D) s]
  unfold LessThanZeroFunction.apply
  have h2e : (2 : ℤ) ≤ 2 ^ e := by
    calc (2 : ℤ) = 2 ^ 1 := by norm_num
    _ ≤ 2 ^ e := by
      apply pow_le_pow_right₀ (by norm_num) he
  split
  · rw [Int.emod_eq_of_lt (by norm_num) (by omega)]
  · rw [Int.emod_eq_of_lt (by norm_num) (by omega)]

/-- Witness for C8: a two-party, four-row `LessThanZero` table with
modulus `4`, secret `1`, share ring `2^1`, all-zero sampling, at row 3. -/
theorem preprocessed_gate_reveal_witness :
    2 ≤ 2 ∧ 3 < 4 ∧
      reveal (PreprocessedGate.build (fun v s => v * s) 1 2 4 1 (fun _ _ => 0) 3) 2 1 =
        (fun v s => v * s) (3 : ℤ) 1 % 2 ^ 1 ∧
      reveal (PreprocessedGate.build (LessThanZeroFunction.apply 4) 1 2 4 1
          (fun _ _ => 0) 3) 2 1 =
        LessThanZeroFunction.apply 4 3 1 := by
  refine ⟨by decide, by decide, ?_, ?_⟩
  · exact (preprocessed_gate_reveal (fun v s => v * s) 1 2 4 1 (fun _ _ => 0)
      (by decide) 3 (by decide)).1
  · exact (preprocessed_gate_reveal (fun v s => v * s) 1 2 4 1 (fun _ _ => 0)
      (by decide) 3 (by decide)).2 4 1 (by decide)

/-! ### MAC scheme (mac_scheme.rs)

`MACSchemeParams` carries `n` parties, ring bits `k`, security bits `s`
and `ks = k + s`; the functions below take these as explicit arguments.
-/

theorem sum_modEq (s : Finset ℕ) (f g : ℕ → ℤ) (M : ℤ)
    (h : ∀ i ∈ s, f i ≡ g i [ZMOD M]) :
    (∑ i ∈ s, f i) ≡ (∑ i ∈ s, g i) [ZMOD M] := by
  induction s using Finset.induction_on with
  | empty => rfl
  | insert hx ih =>
      rw [Finset.sum_insert hx, Finset.sum_insert hx]
      exact Int.ModEq.add (h _ (Finset.mem_insert_self _ _))
        (ih fun i hi => h i (Finset.mem_insert_of_mem hi))

theorem emod_modEq (a M : ℤ) : a % M ≡ a [ZMOD M] :=
  Int.emod_emod_of_dvd a dvd_rfl

/-- `batch_open`, first phase: the masked share matrix
`x̃_{i,j} = X_{i,j} + r_j-share_i * 2^k`, where `r_j` is the sampled
`s`-bit mask of column `j` and `r_j-share` its additive sharing over the
`s`-bit ring. -/
def batch_open_x_tilde_shares (k s n : ℕ) (X : ℕ → ℕ → ℤ)
    (rmask : ℕ → ℤ) (rrand : ℕ → ℕ → ℤ) : ℕ → ℕ → ℤ :=
  fun i j => X i j + share (rmask j) n s (rrand j) i * 2 ^ k

/-- `batch_open`, MAC shares: `m̃_{i,j} = alpha * x̃_{i,j} mod 2^(k+s)`
(the scheme multiplies by its global key `alpha`). -/
def batch_open_m_tilde (k s : ℕ) (alpha : ℤ) (xts : ℕ → ℕ → ℤ) :
    ℕ → ℕ → ℤ :=
  fun i j => alpha * xts i j % 2 ^ (k + s)

/-- `batch_open`, revealed values: `x̃_j = (Σ_i x̃_{i,j}) mod 2^(k+s)`
(the `row_sum` over parties, reduced into the large ring). -/
def batch_open_x_tilde (k s n : ℕ) (xts : ℕ → ℕ → ℤ) : ℕ → ℤ :=
  fun j => (∑ i ∈ Finset.range n, xts i j) % 2 ^ (k + s)

/-- `batch_check`, per-party combined value
`z_i = (⟨χ, m̃_i⟩ mod 2^(k+s) - α_i * ỹ) mod 2^(k+s)` with
`ỹ = ⟨χ, x̃⟩ mod 2^(k+s)`. -/
def batch_check_z (k s t : ℕ) (chi x_tilde alpha_shares : ℕ → ℤ)
    (m_tilde : ℕ → ℕ → ℤ) : ℕ → ℤ :=
  fun i =>
    (dotR t chi (m_tilde i) % 2 ^ (k + s) -
        alpha_shares i * (dotR t chi x_tilde % 2 ^ (k + s))) % 2 ^ (k + s)

/-- `AuthenticatedSharingScheme::batch_check`: accept (returning
`x̃_j mod 2^k` for each column) exactly when `Σ_i z_i ≡ 0 mod 2^(k+s)`. -/
def batch_check (k s n t : ℕ) (chi x_tilde alpha_shares : ℕ → ℤ)
    (m_tilde : ℕ → ℕ → ℤ) : Option (List ℤ) :=
  if (∑ i ∈ Finset.range n, batch_check_z k s t chi x_tilde alpha_shares m_tilde i) %
      2 ^ (k + s) = 0 then
    some ((List.range t).map fun j => x_tilde j % 2 ^ k)
  else
    none

theorem batch_check_z_sum_congr (k s n t : ℕ)
    (chi x_tilde alpha_shares : ℕ → ℤ) (m_tilde : ℕ → ℕ → ℤ) :
    (∑ i ∈ Finset.range n, batch_check_z k s t chi x_tilde alpha_shares m_tilde i) ≡
      (∑ i ∈ Finset.range n,
        (dotR t chi (m_tilde i) -
          alpha_shares i * (dotR t chi x_tilde % 2 ^ (k + s)))) [ZMOD (2 ^ (k + s) : ℤ)] := by
  apply sum_modEq
  intro i _
  unfold batch_check_z
  exact (emod_modEq _ _).trans
    (Int.ModEq.sub (emod_modEq _ _) (Int.ModEq.refl _))

/-- Claim C5: `batch_check` accepts iff
`Σ_i (⟨χ, m̃_i⟩ - α_i·ỹ) ≡ 0 mod 2^(k+s)` (with `ỹ = ⟨χ, x̃⟩ mod 2^(k+s)`,
for the sampled challenge `χ`); on acceptance the returned vector has
`j`-th entry `x̃_j mod 2^k`, and on rejection it returns `none`. -/
theorem batch_check_accept_iff (k s n t : ℕ)
    (chi x_tilde alpha_shares : ℕ → ℤ) (m_tilde : ℕ → ℕ → ℤ) :
    ((batch_check k s n t chi x_tilde alpha_shares m_tilde).isSome ↔
      (∑ i ∈ Finset.range n,
        (dotR t chi (m_tilde i) -
          alpha_shares i * (dotR t chi x_tilde % 2 ^ (k + s)))) % 2 ^ (k + s) = 0) ∧
    (∀ v, batch_check k s n t chi x_tilde alpha_shares m_tilde = some v →
      v = (List.range t).map fun j => x_tilde j % 2 ^ k) ∧
    ((∑ i ∈ Finset.range n,
        (dotR t chi (m_tilde i) -
          alpha_shares i * (dotR t chi x_tilde % 2 ^ (k + s)))) % 2 ^ (k + s) ≠ 0 →
      batch_check k s n t chi x_tilde alpha_shares m_tilde = none) := by
  have hcongr : (∑ i ∈ Finset.range n,
      batch_check_z k s t chi x_tilde alpha_shares m_tilde i) % 2 ^ (k + s) =
      (∑ i ∈ Finset.range n,
        (dotR t chi (m_tilde i) -
          alpha_shares i * (dotR t chi x_tilde % 2 ^ (k + s)))) % 2 ^ (k + s) :=
    batch_check_z_sum_congr k s n t chi x_tilde alpha_shares m_tilde
  unfold batch_check
  rw [hcongr]
  refine ⟨?_, ?_, ?_⟩
  · split
    · rename_i h
      exact iff_of_true (by simp) h
    · rename_i h
      exact iff_of_false (by simp) h
  · intro v hv
    split at hv
    · exact (Option.some_inj.mp hv).symm
    · exact absurd hv (by simp)
  · intro hne
    rw [if_neg hne]

/-- Witness for C5 at a concrete rejecting instance (`n = 2`, `t = 1`,
challenge `1`, zero key shares, one nonzero MAC share: the claim-level
`Σ z_i = 1 ≠ 0 mod 4`, so `batch_check` returns `none`). -/
theorem batch_check_accept_iff_witness :
    batch_check 1 1 2 1 (fun _ => 1) (fun _ => 1) (fun _ => 0)
      (fun i _ => if i = 0 then 1 else 0) = none :=
  (batch_check_accept_iff 1 1 2 1 (fun _ => 1) (fun _ => 1) (fun _ => 0)
    (fun i _ => if i = 0 then 1 else 0)).2.2 (by decide)

theorem batch_open_m_tilde_col_sum (k s n : ℕ) (alpha : ℤ) (xts : ℕ → ℕ → ℤ) (j : ℕ) :
    (∑ i ∈ Finset.range n, batch_open_m_tilde k s alpha xts i j) ≡
      alpha * batch_open_x_tilde k s n xts j [ZMOD ((2 : ℤ) ^ (k + s))] := by
  have h1 : (∑ i ∈ Finset.range n, batch_open_m_tilde k s alpha xts i j) ≡
      (∑ i ∈ Finset.range n, alpha * xts i j) [ZMOD ((2 : ℤ) ^ (k + s))] := by
    apply sum_modEq
    intro i _
    exact emod_modEq _ _
  have h2 : alpha * batch_open_x_tilde k s n xts j ≡
      alpha * (∑ i ∈ Finset.range n, xts i j) [ZMOD ((2 : ℤ) ^ (k + s))] :=
    (emod_modEq _ _).mul_left alpha
  rw [← Finset.mul_sum] at h1
  exact h1.trans h2.symm

theorem batch_open_check_z_sum_zero (k s n t : ℕ) (alpha : ℤ) (X : ℕ → ℕ → ℤ)
    (rmask : ℕ → ℤ) (rrand : ℕ → ℕ → ℤ) (chi alpha_shares : ℕ → ℤ)
    (halpha : (∑ i ∈ Finset.range n, alpha_shares i) ≡ alpha [ZMOD ((2 : ℤ) ^ (k + s))]) :
    (∑ i ∈ Finset.range n,
      batch_check_z k s t chi
        (batch_open_x_tilde k s n (batch_open_x_tilde_shares k s n X rmask rrand))
        alpha_shares
        (batch_open_m_tilde k s alpha (batch_open_x_tilde_shares k s n X rmask rrand)) i) %
      2 ^ (k + s) = 0 := by
  set xts := batch_open_x_tilde_shares k s n X rmask rrand with hxts
  set xt := batch_open_x_tilde k s n xts with hxt
  set mt := batch_open_m_tilde k s alpha xts with hmt
  set Y := dotR t chi xt % 2 ^ (k + s) with hY
  have hstep1 : (∑ i ∈ Finset.range n, batch_check_z k s t chi xt alpha_shares mt i) ≡
      (∑ i ∈ Finset.range n, dotR t chi (mt i)) -
        (∑ i ∈ Finset.range n, alpha_shares i) * Y [ZMOD ((2 : ℤ) ^ (k + s))] := by
    have h := sum_modEq (Finset.range n)
      (batch_check_z k s t chi xt alpha_shares mt)
      (fun i => dotR t chi (mt i) - alpha_shares i * Y) ((2 : ℤ) ^ (k + s))
      (fun i _ => by
        unfold batch_check_z
        exact (emod_modEq _ _).trans (Int.ModEq.sub (emod_modEq _ _) (Int.ModEq.refl _)))
    rw [Finset.sum_sub_distrib, ← Finset.sum_mul] at h
    exact h
  have hswap : (∑ i ∈ Finset.range n, dotR t chi (mt i)) =
      ∑ j ∈ Finset.range t, chi j * (∑ i ∈ Finset.range n, mt i j) := by
    unfold dotR
    rw [Finset.sum_comm]
    apply Finset.sum_congr rfl
    intro j _
    rw [Finset.mul_sum]
  have hstep2 : (∑ i ∈ Finset.range n, dotR t chi (mt i)) ≡
      alpha * dotR t chi xt [ZMOD ((2 : ℤ) ^ (k + s))] := by
    rw [hswap]
    have h := sum_modEq (Finset.range t)
      (fun j => chi j * (∑ i ∈ Finset.range n, mt i j))
      (fun j => chi j * (alpha * xt j)) ((2 : ℤ) ^ (k + s))
      (fun j _ => (batch_open_m_tilde_col_sum k s n alpha xts j).mul_left (chi j))
    have heq : (∑ j ∈ Finset.range t, chi j * (alpha * xt j)) =
        alpha * dotR t chi xt := by
      unfold dotR
      rw [Finset.mul_sum]
      apply Finset.sum_congr rfl
      intro j _
      ring
    rw [heq] at h
    exact h
  have hstep3 : (∑ i ∈ Finset.range n, alpha_shares i) * Y ≡
      alpha * dotR t chi xt [ZMOD ((2 : ℤ) ^ (k + s))] := by
    have h1 : (∑ i ∈ Finset.range n, alpha_shares i) * Y ≡ alpha * Y
        [ZMOD ((2 : ℤ) ^ (k + s))] := halpha.mul_right Y
    have h2 : alpha * Y ≡ alpha * dotR t chi xt [ZMOD ((2 : ℤ) ^ (k + s))] :=
      (emod_modEq _ _).mul_left alpha
    exact h1.trans h2
  have htotal : (∑ i ∈ Finset.range n, batch_check_z k s t chi xt alpha_shares mt i) ≡ 0
      [ZMOD ((2 : ℤ) ^ (k + s))] := by
    refine hstep1.trans ?_
    have := Int.ModEq.sub hstep2 hstep3
    simpa using this
  have h0 : (∑ i ∈ Finset.range n, batch_check_z k s t chi xt alpha_shares mt i) %
      2 ^ (k + s) = 0 % 2 ^ (k + s) := htotal
  rwa [Int.zero_emod] at h0

theorem batch_open_x_tilde_mod_k (k s n : ℕ) (X : ℕ → ℕ → ℤ)
    (rmask : ℕ → ℤ) (rrand : ℕ → ℕ → ℤ) (j : ℕ) :
    batch_open_x_tilde k s n (batch_open_x_tilde_shares k s n X rmask rrand) j % 2 ^ k =
      (∑ i ∈ Finset.range n, X i j) % 2 ^ k := by
  unfold batch_open_x_tilde batch_open_x_tilde_shares
  have hdvd : (2 : ℤ) ^ k ∣ 2 ^ (k + s) := pow_dvd_pow 2 (by omega)
  rw [Int.emod_emod_of_dvd _ hdvd, Finset.sum_add_distrib, ← Finset.sum_mul,
    Int.add_mul_emod_self]

/-- Claim C6: composing `batch_open` with `batch_check` on its outputs,
for any share matrix `X`, any masks, any challenge and any additive
sharing of the scheme's global key `alpha` over `2^(k+s)`, always accepts
and recovers column sums modulo `2^k` — the masks `r_j` never change the
recovered value. -/
theorem batch_open_check_roundtrip (k s n t : ℕ) (alpha : ℤ) (X : ℕ → ℕ → ℤ)
    (rmask : ℕ → ℤ) (rrand : ℕ → ℕ → ℤ) (chi alpha_shares : ℕ → ℤ)
    (halpha : (∑ i ∈ Finset.range n, alpha_shares i) ≡ alpha [ZMOD ((2 : ℤ) ^ (k + s))]) :
    batch_check k s n t chi
        (batch_open_x_tilde k s n (batch_open_x_tilde_shares k s n X rmask rrand))
        alpha_shares
        (batch_open_m_tilde k s alpha (batch_open_x_tilde_shares k s n X rmask rrand)) =
      some ((List.range t).map fun j => (∑ i ∈ Finset.range n, X i j) % 2 ^ k) := by
  unfold batch_check
  rw [if_pos (batch_open_check_z_sum_zero k s n t alpha X rmask rrand chi alpha_shares halpha)]
  congr 1
  apply List.map_congr_left
  intro j _
  exact batch_open_x_tilde_mod_k k s n X rmask rrand j

/-- Witness for C6 at `k = s = 1`, `n = 2`, `t = 1`, global key `1` shared
as `(3, 2)` (sum `5 ≡ 1 mod 4`), share matrix summing to `3` per column. -/
theorem batch_open_check_roundtrip_witness :
    ((∑ i ∈ Finset.range 2, (fun i => if i = 0 then (3 : ℤ) else 2) i) ≡ 1
      [ZMOD ((2 : ℤ) ^ (1 + 1))]) ∧
    batch_check 1 1 2 1 (fun _ => 1)
        (batch_open_x_tilde 1 1 2
          (batch_open_x_tilde_shares 1 1 2 (fun i _ => if i = 0 then 2 else 1)
            (fun _ => 1) (fun _ _ => 1)))
        (fun i => if i = 0 then 3 else 2)
        (batch_open_m_tilde 1 1 1
          (batch_open_x_tilde_shares 1 1 2 (fun i _ => if i = 0 then 2 else 1)
            (fun _ => 1) (fun _ _ => 1))) =
      some ((List.range 1).map fun j =>
        (∑ i ∈ Finset.range 2, (fun i _ => if i = 0 then (2 : ℤ) else 1) i j) % 2 ^ 1) :=
  ⟨by decide, batch_open_check_roundtrip 1 1 2 1 1 (fun i _ => if i = 0 then 2 else 1)
    (fun _ => 1) (fun _ _ => 1) (fun _ => 1) (fun i => if i = 0 then 3 else 2) (by decide)⟩

/-! ### Public parameters and the single-process protocol (protocol.rs)

`PublicParameters::init(n, k, m, b, lwe_dimension, mac_s)` derives
`l = k - m`, `d = ceil(l / b)` (the source computes the ceiling through
`f64::ceil`, which is exact for the word-sized bit lengths in use),
`q = 2^k`, `p = 2^m`, `L = 2^l`, `B = 2^b`, `D = 2^(d+1)`.
-/

structure PublicParameters where
  n : ℕ
  k : ℕ
  m : ℕ
  b : ℕ
  lwe_dimension : ℕ

def PublicParameters.l (P : PublicParameters) : ℕ := P.k - P.m

def PublicParameters.d (P : PublicParameters) : ℕ := (P.l + P.b - 1) / P.b

def PublicParameters.q (P : PublicParameters) : ℤ := 2 ^ P.k

def PublicParameters.p (P : PublicParameters) : ℤ := 2 ^ P.m

def PublicParameters.bigL (P : PublicParameters) : ℤ := 2 ^ P.l

def PublicParameters.bigB (P : PublicParameters) : ℤ := 2 ^ P.b

def PublicParameters.bigD (P : PublicParameters) : ℤ := 2 ^ (P.d + 1)

/-- One stream of dealer randomness per `share` call performed by
`Protocol::preprocess` and `Protocol::share_sk`. -/
structure DealerRandomness where
  sRand : ℕ → ℤ
  rRand : ℕ → ℤ
  ltzRand : ℕ → ℕ → ℤ
  signRand : ℕ → ℕ → ℕ → ℤ
  skRand : ℕ → ℕ → ℤ

/-- `Protocol::preprocess`: the additive sharing of `s` over ring
`2^(d+1)`. -/
def Protocol.sShare (P : PublicParameters) (rand : DealerRandomness) (s : ℤ) : ℕ → ℤ :=
  share s P.n (P.d + 1) rand.sRand

/-- `Protocol::preprocess`: the additive sharing of `r` over ring `2^k`. -/
def Protocol.rShare (P : PublicParameters) (rand : DealerRandomness) (r : ℤ) : ℕ → ℤ :=
  share r P.n P.k rand.rRand

/-- `Protocol::preprocess`: the `LessThanZero` gate with modulus `D`,
`D = 2^(d+1)` rows, share ring `2^m`, built from the secret `s`. -/
def Protocol.ltzTable (P : PublicParameters) (rand : DealerRandomness) (s : ℤ) :
    ℕ → ℕ → ℤ :=
  PreprocessedGate.build (LessThanZeroFunction.apply P.bigD) s P.n (2 ^ (P.d + 1)) P.m
    rand.ltzRand

/-- `Protocol::preprocess`: the digits of `r` in base `B`, zero-padded to
length `d` (`DVector::from_fn(d, ..)` over `decompose(r)`). -/
def Protocol.rDigits (P : PublicParameters) (r : ℤ) : ℕ → ℤ :=
  fun j => (decompose P.bigB r).getD j 0

/-- `Protocol::preprocess`: the `Sign` gate for digit `j` of `r`, with
`B = 2^b` rows and share ring `2^(d+1)`. -/
def Protocol.signTable (P : PublicParameters) (rand : DealerRandomness) (r : ℤ) (j : ℕ) :
    ℕ → ℕ → ℤ :=
  PreprocessedGate.build SignFunction.apply (Protocol.rDigits P r j) P.n (2 ^ P.b)
    (P.d + 1) (rand.signRand j)

/-- `Protocol::share_sk`: coordinate `c` of the secret key is shared over
ring `2^k`; `Protocol.skShare P rand sk c i` is party `i`'s share of
`sk c`. -/
def Protocol.skShare (P : PublicParameters) (rand : DealerRandomness) (sk : ℕ → ℤ)
    (c : ℕ) : ℕ → ℤ :=
  share (sk c) P.n P.k (rand.skRand c)

/-- All per-party values set during `Protocol::decrypt` (protocol.rs,
steps 1-3 plus the revealed values and the final plaintext). -/
structure DecryptTrace where
  zShares : ℕ → ℤ
  zPrimeShares : ℕ → ℤ
  zPrime : ℤ
  yShares : ℕ → ℤ
  yPrimeShares : ℕ → ℤ
  yPrime : ℤ
  uShares : ℕ → ℤ
  eShares : ℕ → ℤ
  oPrimeShares : ℕ → ℤ
  oPrime : ℤ
  msg : ℤ

/-- `Protocol::decrypt`, step 1 of the party loop:
`z_i = [i=0]*(b + 2^(l-1)) - ((-<a, sk_i>) mod q)`, stored unreduced. -/
def Protocol.stepZ (P : PublicParameters) (rand : DealerRandomness)
    (sk a : ℕ → ℤ) (b : ℤ) : ℕ → ℤ :=
  fun i =>
    (if i = 0 then b + 2 ^ (P.l - 1) else 0) -
      (-(dotR P.lwe_dimension a fun c => Protocol.skShare P rand sk c i)) % P.q

/-- `mod_l_protocol`: `z'_i = (z_i + r_i) mod L`. -/
def Protocol.stepZPrimeShares (P : PublicParameters) (rand : DealerRandomness)
    (r : ℤ) (sk a : ℕ → ℤ) (b : ℤ) : ℕ → ℤ :=
  fun i => (Protocol.stepZ P rand sk a b i + Protocol.rShare P rand r i) % P.bigL

/-- `mod_l_protocol`: the revealed `z' = (Σ z'_i) mod L`. -/
def Protocol.zPrimeVal (P : PublicParameters) (rand : DealerRandomness)
    (r : ℤ) (sk a : ℕ → ℤ) (b : ℤ) : ℤ :=
  reveal (Protocol.stepZPrimeShares P rand r sk a b) P.n P.l

/-- `weighted_signs_protocol` + `calc_weighted_sum`: the digits of the
revealed `z'` in base `B`, zero-padded to length `d`, and
`y_i = Σ_j sign_table_j[digit_j][i] * 2^j`. -/
def Protocol.stepYShares (P : PublicParameters) (rand : DealerRandomness)
    (r : ℤ) (sk a : ℕ → ℤ) (b : ℤ) : ℕ → ℤ :=
  fun i =>
    ∑ j ∈ Finset.range P.d,
      Protocol.signTable P rand r j
        ((decompose P.bigB (Protocol.zPrimeVal P rand r sk a b)).getD j 0).toNat i * 2 ^ j

/-- `ltz_protocol`: `y'_i = (y_i + s_i) mod D`. -/
def Protocol.stepYPrimeShares (P : PublicParameters) (rand : DealerRandomness)
    (s r : ℤ) (sk a : ℕ → ℤ) (b : ℤ) : ℕ → ℤ :=
  fun i => (Protocol.stepYShares P rand r sk a b i + Protocol.sShare P rand s i) % P.bigD

/-- `ltz_protocol`: the revealed `y' = (Σ y'_i) mod D = (Σ y'_i) mod 2^(d+1)`. -/
def Protocol.yPrimeVal (P : PublicParameters) (rand : DealerRandomness)
    (s r : ℤ) (sk a : ℕ → ℤ) (b : ℤ) : ℤ :=
  reveal (Protocol.stepYPrimeShares P rand s r sk a b) P.n (P.d + 1)

/-- `ltz_protocol`: `u_i` is party `i`'s LTZ-table entry at row `y'`. -/
def Protocol.stepUShares (P : PublicParameters) (rand : DealerRandomness)
    (s r : ℤ) (sk a : ℕ → ℤ) (b : ℤ) : ℕ → ℤ :=
  fun i => Protocol.ltzTable P rand s (Protocol.yPrimeVal P rand s r sk a b).toNat i

/-- `mod_l_protocol`: `e_i = [i=0]*z' + ((-r_i) mod q) + u_i * L`, stored
unreduced. -/
def Protocol.stepEShares (P : PublicParameters) (rand : DealerRandomness)
    (s r : ℤ) (sk a : ℕ → ℤ) (b : ℤ) : ℕ → ℤ :=
  fun i =>
    (if i = 0 then Protocol.zPrimeVal P rand r sk a b else 0) +
      (-(Protocol.rShare P rand r i)) % P.q +
      Protocol.stepUShares P rand s r sk a b i * P.bigL

/-- End of step 3: `o'_i = (z_i + ((-e_i) mod q)) mod q`. -/
def Protocol.stepOPrimeShares (P : PublicParameters) (rand : DealerRandomness)
    (s r : ℤ) (sk a : ℕ → ℤ) (b : ℤ) : ℕ → ℤ :=
  fun i =>
    (Protocol.stepZ P rand sk a b i +
        (-(Protocol.stepEShares P rand s r sk a b i)) % P.q) % P.q

/-- The revealed `o' = (Σ o'_i) mod q`. -/
def Protocol.oPrimeVal (P : PublicParameters) (rand : DealerRandomness)
    (s r : ℤ) (sk a : ℕ → ℤ) (b : ℤ) : ℤ :=
  reveal (Protocol.stepOPrimeShares P rand s r sk a b) P.n P.k

/-- `Protocol::decrypt(a, b)` (protocol.rs) composed with the
`mod_l_protocol`, `lt_r_l_protocol`, `ltz_protocol` and
`weighted_signs_protocol` it calls; the final plaintext is
`round_div(o', L)`.  The trace records every per-party value the source
stores on the `Party` structs. -/
def Protocol.decrypt (P : PublicParameters) (rand : DealerRandomness)
    (s r : ℤ) (sk a : ℕ → ℤ) (b : ℤ) : DecryptTrace :=
  { zShares := Protocol.stepZ P rand sk a b
    zPrimeShares := Protocol.stepZPrimeShares P rand r sk a b
    zPrime := Protocol.zPrimeVal P rand r sk a b
    yShares := Protocol.stepYShares P rand r sk a b
    yPrimeShares := Protocol.stepYPrimeShares P rand s r sk a b
    yPrime := Protocol.yPrimeVal P rand s r sk a b
    uShares := Protocol.stepUShares P rand s r sk a b
    eShares := Protocol.stepEShares P rand s r sk a b
    oPrimeShares := Protocol.stepOPrimeShares P rand s r sk a b
    oPrime := Protocol.oPrimeVal P rand s r sk a b
    msg := round_div (Protocol.oPrimeVal P rand s r sk a b) P.bigL }

/-- The `n × 3` matrix of opened-value shares `(z'_i, y'_i, o'_i)` that the
reference implementation feeds through the MAC `batch_open`/`batch_check`
post-pass (column order as in the source's `DMatrix::from_fn(n, 3, ..)`). -/
def Protocol.openedShares (tr : DecryptTrace) : ℕ → ℕ → ℤ :=
  fun i j =>
    if j = 0 then tr.zPrimeShares i
    else if j = 1 then tr.yPrimeShares i
    else if j = 2 then tr.oPrimeShares i
    else 0

/-! ### Digit comparison: the weighted-sign trick -/

theorem ediv_ediv_of_pos (a : ℤ) {b c : ℤ} (hb : 0 < b) (hc : 0 < c) :
    a / b / c = a / (b * c) := by
  have hbc : 0 < b * c := by positivity
  have h := (Int.ediv_emod_unique (a := a) (b := b * c)
    (r := b * (a / b % c) + a % b) (q := a / b / c) hbc).mpr ?_
  · exact h.1.symm
  · refine ⟨?_, ?_, ?_⟩
    · have h1 := Int.emod_add_ediv a b
      have h2 := Int.emod_add_ediv (a / b) c
      nlinarith [h1, h2]
    · have h1 := Int.emod_nonneg a (by omega : b ≠ 0)
      have h2 := Int.emod_nonneg (a / b) (by omega : c ≠ 0)
      nlinarith
    · have h1 := Int.emod_lt_of_pos a hb
      have h2 := Int.emod_lt_of_pos (a / b) hc
      have h3 := Int.emod_nonneg a (by omega : b ≠ 0)
      nlinarith

/-- The `j`-th base-`base` digit of `x` (for `x ≥ 0` this is what
`decompose` produces, zero-padded). -/
def digitOf (base x : ℤ) (j : ℕ) : ℤ := x / base ^ j % base

theorem decompose_getD_eq_digitOf (base : ℤ) (hb : 2 ≤ base) :
    ∀ fuel : ℕ, ∀ x : ℤ, 0 ≤ x → x.toNat ≤ fuel → ∀ j : ℕ,
      (decompose base x).getD j 0 = digitOf base x j := by
  intro fuel
  induction fuel with
  | zero =>
      intro x hx hle j
      have hx0 : x = 0 := by omega
      subst hx0
      rw [decompose_zero]
      simp [digitOf]
  | succ n ih =>
      intro x hx hle j
      rcases eq_or_lt_of_le hx with hx0 | hxpos
      · rw [← hx0, decompose_zero]
        simp [digitOf]
      · have hdiv_nonneg : 0 ≤ x / base := Int.ediv_nonneg hx (by omega)
        have hdiv_lt : x / base < x := by
          rw [Int.ediv_lt_iff_lt_mul (by omega)]
          nlinarith
        rw [decompose_cons base x hxpos hb]
        cases j with
        | zero =>
            simp [digitOf]
        | succ j =>
            rw [List.getD_cons_succ, ih (x / base) hdiv_nonneg (by omega) j]
            unfold digitOf
            rw [ediv_ediv_of_pos _ (by omega) (by positivity), ← pow_succ']

theorem digitOf_succ (base x : ℤ) (hb : 0 < base) (j : ℕ) :
    digitOf base x (j + 1) = digitOf base (x / base) j := by
  unfold digitOf
  rw [ediv_ediv_of_pos _ hb (by positivity), ← pow_succ']

/-- The integer a party accumulates in `calc_weighted_sum`, expressed on
revealed values: `Σ_j sign(x_j - y_j) * 2^j` over the base-`base` digits of
`x` and `y`. -/
def weightedSign (base : ℤ) (dd : ℕ) (x y : ℤ) : ℤ :=
  ∑ j ∈ Finset.range dd, (digitOf base x j - digitOf base y j).sign * 2 ^ j

theorem weightedSign_succ (base : ℤ) (hb : 0 < base) (dd : ℕ) (x y : ℤ) :
    weightedSign base (dd + 1) x y =
      2 * weightedSign base dd (x / base) (y / base) + (x % base - y % base).sign := by
  unfold weightedSign
  rw [Finset.sum_range_succ']
  congr 1
  · rw [Finset.mul_sum]
    apply Finset.sum_congr rfl
    intro j _
    rw [digitOf_succ base x hb j, digitOf_succ base y hb j]
    ring
  · simp [digitOf]

theorem sign_bounds (a : ℤ) : -1 ≤ a.sign ∧ a.sign ≤ 1 := by
  rcases lt_trichotomy a 0 with h | h | h
  · rw [Int.sign_eq_neg_one_of_neg h]
    omega
  · rw [h, Int.sign_zero]
    omega
  · rw [Int.sign_eq_one_of_pos h]
    omega

theorem weightedSign_spec (base : ℤ) (hb : 2 ≤ base) :
    ∀ dd : ℕ, ∀ x y : ℤ, 0 ≤ x → x < base ^ dd → 0 ≤ y → y < base ^ dd →
      |weightedSign base dd x y| ≤ 2 ^ dd - 1 ∧
      (weightedSign base dd x y < 0 ↔ x < y) ∧
      (weightedSign base dd x y = 0 ↔ x = y) := by
  intro dd
  induction dd with
  | zero =>
      intro x y hx0 hx1 hy0 hy1
      have hx : x = 0 := by
        simp only [pow_zero] at hx1
        omega
      have hy : y = 0 := by
        simp only [pow_zero] at hy1
        omega
      subst hx
      subst hy
      simp [weightedSign]
  | succ dd ih =>
      intro x y hx0 hx1 hy0 hy1
      have hbpos : (0 : ℤ) < base := by omega
      have hxhi0 : 0 ≤ x / base := Int.ediv_nonneg hx0 (by omega)
      have hyhi0 : 0 ≤ y / base := Int.ediv_nonneg hy0 (by omega)
      have hxhi1 : x / base < base ^ dd := by
        rw [Int.ediv_lt_iff_lt_mul hbpos]
        calc x < base ^ (dd + 1) := hx1
        _ = base ^ dd * base := by rw [pow_succ]
      have hyhi1 : y / base < base ^ dd := by
        rw [Int.ediv_lt_iff_lt_mul hbpos]
        calc y < base ^ (dd + 1) := hy1
        _ = base ^ dd * base := by rw [pow_succ]
      obtain ⟨ihb, ihlt, iheq⟩ := ih (x / base) (y / base) hxhi0 hxhi1 hyhi0 hyhi1
      rw [weightedSign_succ base hbpos]
      set Whi := weightedSign base dd (x / base) (y / base) with hWhi
      have hxeq := Int.emod_add_ediv x base
      have hyeq := Int.emod_add_ediv y base
      have hxm0 : 0 ≤ x % base := Int.emod_nonneg x (by omega)
      have hxm1 : x % base < base := Int.emod_lt_of_pos x hbpos
      have hym0 : 0 ≤ y % base := Int.emod_nonneg y (by omega)
      have hym1 : y % base < base := Int.emod_lt_of_pos y hbpos
      have habs := abs_le.mp ihb
      have hA : (0 : ℤ) < 2 ^ dd := by positivity
      have hpow : (2 : ℤ) ^ (dd + 1) = 2 * 2 ^ dd := by
        rw [pow_succ]
        ring
      rcases lt_trichotomy (x / base) (y / base) with hcase | hcase | hcase
      · -- high parts differ: x strictly below y
        have hWneg : Whi < 0 := ihlt.mpr hcase
        have hxy : x < y := by
          have hstep : (x / base + 1) * base ≤ (y / base) * base :=
            mul_le_mul_of_nonneg_right (by omega) (by omega)
          nlinarith
        have hsbound : -1 ≤ (x % base - y % base).sign ∧
            (x % base - y % base).sign ≤ 1 := sign_bounds _
        refine ⟨?_, ?_, ?_⟩
        · rw [abs_le]
          constructor <;> omega
        · constructor <;> intro _ <;> omega
        · constructor <;> intro h
          · omega
          · omega
      · -- equal high parts: the low digit decides
        have hWzero : Whi = 0 := iheq.mpr hcase
        have hxy : x < y ↔ x % base < y % base := by
          constructor <;> intro h <;> nlinarith [hcase]
        have hxyeq : x = y ↔ x % base = y % base := by
          constructor <;> intro h <;> nlinarith [hcase]
        rw [hWzero]
        refine ⟨?_, ?_, ?_⟩
        · rw [abs_le]
          have h1 := (sign_bounds (x % base - y % base)).1
          have h2 := (sign_bounds (x % base - y % base)).2
          constructor <;> omega
        · rw [hxy]
          rcases lt_trichotomy (x % base) (y % base) with hm | hm | hm
          · rw [show x % base - y % base = -(y % base - x % base) by ring,
              Int.sign_neg, Int.sign_eq_one_iff_pos.mpr (by omega)]
            simp [hm]
          · rw [show x % base - y % base = 0 by omega]
            simp
            omega
          · rw [Int.sign_eq_one_iff_pos.mpr (by omega)]
            simp
            omega
        · rw [hxyeq]
          rcases lt_trichotomy (x % base) (y % base) with hm | hm | hm
          · rw [show x % base - y % base = -(y % base - x % base) by ring,
              Int.sign_neg, Int.sign_eq_one_iff_pos.mpr (by omega)]
            simp
            omega
          · rw [show x % base - y % base = 0 by omega]
            simp
            omega
          · rw [Int.sign_eq_one_iff_pos.mpr (by omega)]
            simp
            omega
      · -- high parts differ: x strictly above y
        have hWpos : 0 < Whi := by
          rcases lt_trichotomy Whi 0 with h | h | h
          · exact absurd (ihlt.mp h) (by omega)
          · exact absurd (iheq.mp h) (by omega)
          · exact h
        have hxy : y < x := by
          have hstep : (y / base + 1) * base ≤ (x / base) * base :=
            mul_le_mul_of_nonneg_right (by omega) (by omega)
          nlinarith
        have hsbound : -1 ≤ (x % base - y % base).sign ∧
            (x % base - y % base).sign ≤ 1 := sign_bounds _
        refine ⟨?_, ?_, ?_⟩
        · rw [abs_le]
          constructor <;> omega
        · constructor <;> intro h <;> omega
        · constructor <;> intro h <;> omega

/-! ### Arithmetic helpers for the protocol proof -/

theorem sum_share_modEq_int (x : ℤ) (N e : ℕ) (rand : ℕ → ℤ) (hN : 1 ≤ N) :
    (∑ i ∈ Finset.range N, share x N e rand i) ≡ x [ZMOD ((2 : ℤ) ^ e)] := by
  have h := sum_share_modEq x N e rand hN
  have h2 : (((2 : ℕ) ^ e : ℕ) : ℤ) = (2 : ℤ) ^ e := by push_cast; ring
  rwa [h2] at h

theorem emod_big_half_iff (dd : ℕ) (W : ℤ) (hW : |W| ≤ 2 ^ dd - 1) :
    ((2 : ℤ) ^ (dd + 1) / 2 ≤ W % 2 ^ (dd + 1)) ↔ W < 0 := by
  have hD : (2 : ℤ) ^ (dd + 1) = 2 * 2 ^ dd := by
    rw [pow_succ]
    ring
  have hhalf : (2 : ℤ) ^ (dd + 1) / 2 = 2 ^ dd := by
    rw [hD, Int.mul_ediv_cancel_left _ (by norm_num)]
  have habs := abs_le.mp hW
  have hA : (0 : ℤ) < 2 ^ dd := by positivity
  rcases le_or_lt 0 W with h0 | h0
  · rw [Int.emod_eq_of_lt h0 (by omega), hhalf]
    constructor <;> intro h <;> omega
  · have hmod : W % 2 ^ (dd + 1) = W + 2 ^ (dd + 1) := by
      have h1 : (W + 2 ^ (dd + 1)) % 2 ^ (dd + 1) = W % 2 ^ (dd + 1) := by
        simp
      rw [← h1, Int.emod_eq_of_lt (by omega) (by omega)]
    rw [hmod, hhalf]
    constructor <;> intro h <;> omega

theorem mask_unwrap (L zeta r : ℤ) (hL : 0 < L) (hz0 : 0 ≤ zeta) (hz1 : zeta < L)
    (hr0 : 0 ≤ r) (hr1 : r < L) :
    (zeta + r) % L - r + (if (zeta + r) % L < r then 1 else 0) * L = zeta := by
  have hcases : (zeta + r) % L = zeta + r ∨ (zeta + r) % L = zeta + r - L := by
    rcases lt_or_le (zeta + r) L with h | h
    · left
      exact Int.emod_eq_of_lt (by omega) h
    · right
      have h1 : (zeta + r - L) % L = (zeta + r) % L := by
        simp [Int.sub_emod]
      rw [← h1, Int.emod_eq_of_lt (by omega) (by omega)]
  rcases hcases with h | h <;> rw [h] <;> split <;> rename_i hcond <;> omega

theorem round_div_mul_cancel (L w : ℤ) (hL : 0 < L) : round_div (L * w) L = w := by
  unfold round_div
  rw [Int.mul_tmod_right]
  have hfalse : ¬(|(0 : ℤ) * 2| > L ∨ (|(0 : ℤ) * 2| = L ∧ (0 : ℤ) < 0)) := by
    simp
    omega
  rw [if_neg hfalse]
  rw [Int.mul_tdiv_cancel_left _ (by omega)]

/-! ### Correctness chain for `Protocol.decrypt` -/

theorem stepZ_sum_modEq (P : PublicParameters) (rand : DealerRandomness)
    (sk a : ℕ → ℤ) (bv : ℤ) (hn : 1 ≤ P.n) :
    (∑ i ∈ Finset.range P.n, Protocol.stepZ P rand sk a bv i) ≡
      bv + 2 ^ (P.l - 1) + dotR P.lwe_dimension a sk [ZMOD P.q] := by
  unfold Protocol.stepZ
  rw [Finset.sum_sub_distrib]
  have hconst : (∑ i ∈ Finset.range P.n,
      (if i = 0 then bv + 2 ^ (P.l - 1) else 0)) = bv + 2 ^ (P.l - 1) := by
    rw [Finset.sum_eq_single_of_mem 0 (Finset.mem_range.mpr (by omega))]
    · rw [if_pos rfl]
    · intro c _ hc
      rw [if_neg hc]
  rw [hconst]
  have hdot : (∑ i ∈ Finset.range P.n,
      (-(dotR P.lwe_dimension a fun c => Protocol.skShare P rand sk c i)) % P.q) ≡
      -(dotR P.lwe_dimension a sk) [ZMOD P.q] := by
    have h1 : (∑ i ∈ Finset.range P.n,
        (-(dotR P.lwe_dimension a fun c => Protocol.skShare P rand sk c i)) % P.q) ≡
        (∑ i ∈ Finset.range P.n,
          -(dotR P.lwe_dimension a fun c => Protocol.skShare P rand sk c i)) [ZMOD P.q] :=
      sum_modEq _ _ _ _ (fun i _ => emod_modEq _ _)
    have hswap : (∑ i ∈ Finset.range P.n,
        dotR P.lwe_dimension a fun c => Protocol.skShare P rand sk c i) =
        ∑ c ∈ Finset.range P.lwe_dimension,
          a c * (∑ i ∈ Finset.range P.n, Protocol.skShare P rand sk c i) := by
      unfold dotR
      rw [Finset.sum_comm]
      apply Finset.sum_congr rfl
      intro c _
      rw [Finset.mul_sum]
    have h2 : (∑ c ∈ Finset.range P.lwe_dimension,
        a c * (∑ i ∈ Finset.range P.n, Protocol.skShare P rand sk c i)) ≡
        dotR P.lwe_dimension a sk [ZMOD P.q] := by
      unfold dotR
      apply sum_modEq
      intro c _
      exact (sum_share_modEq_int (sk c) P.n P.k (rand.skRand c) hn).mul_left (a c)
    refine h1.trans ?_
    rw [Finset.sum_neg_distrib, hswap]
    exact (h2.neg : _)
  have := Int.ModEq.sub (Int.ModEq.refl (bv + 2 ^ (P.l - 1))) hdot
  calc bv + 2 ^ (P.l - 1) -
      (∑ i ∈ Finset.range P.n,
        (-(dotR P.lwe_dimension a fun c => Protocol.skShare P rand sk c i)) % P.q) ≡
      bv + 2 ^ (P.l - 1) - -(dotR P.lwe_dimension a sk) [ZMOD P.q] := this
    _ = bv + 2 ^ (P.l - 1) + dotR P.lwe_dimension a sk := by ring

theorem zPrimeVal_eq (P : PublicParameters) (rand : DealerRandomness)
    (r : ℤ) (sk a : ℕ → ℤ) (bv : ℤ) (hn : 1 ≤ P.n) (hlk : P.l ≤ P.k) :
    Protocol.zPrimeVal P rand r sk a bv =
      ((∑ i ∈ Finset.range P.n, Protocol.stepZ P rand sk a bv i) + r) % P.bigL := by
  unfold Protocol.zPrimeVal reveal Protocol.stepZPrimeShares
  have hL : P.bigL = (2 : ℤ) ^ P.l := rfl
  rw [← hL]
  rw [← Finset.sum_int_mod, Finset.sum_add_distrib]
  have hr : (∑ i ∈ Finset.range P.n, Protocol.rShare P rand r i) ≡ r [ZMOD P.bigL] := by
    have h := sum_share_modEq_int r P.n P.k rand.rRand hn
    exact h.of_dvd (by rw [hL]; exact pow_dvd_pow 2 hlk)
  exact (hr.add_left (∑ i ∈ Finset.range P.n, Protocol.stepZ P rand sk a bv i) : _)

theorem zPrimeVal_bounds (P : PublicParameters) (rand : DealerRandomness)
    (r : ℤ) (sk a : ℕ → ℤ) (bv : ℤ) :
    0 ≤ Protocol.zPrimeVal P rand r sk a bv ∧
      Protocol.zPrimeVal P rand r sk a bv < P.bigL := by
  unfold Protocol.zPrimeVal reveal
  have hL : (0 : ℤ) < 2 ^ P.l := by positivity
  exact ⟨Int.emod_nonneg _ (by omega), Int.emod_lt_of_pos _ hL⟩

theorem bigB_ge_two (P : PublicParameters) (hb : 1 ≤ P.b) : (2 : ℤ) ≤ P.bigB := by
  unfold PublicParameters.bigB
  calc (2 : ℤ) = 2 ^ 1 := by norm_num
  _ ≤ 2 ^ P.b := pow_le_pow_right₀ (by norm_num) hb

theorem stepY_sum_modEq (P : PublicParameters) (rand : DealerRandomness)
    (r : ℤ) (sk a : ℕ → ℤ) (bv : ℤ) (hn : 1 ≤ P.n) (hb : 1 ≤ P.b) (hr0 : 0 ≤ r) :
    (∑ i ∈ Finset.range P.n, Protocol.stepYShares P rand r sk a bv i) ≡
      weightedSign P.bigB P.d (Protocol.zPrimeVal P rand r sk a bv) r [ZMOD P.bigD] := by
  set zPv := Protocol.zPrimeVal P rand r sk a bv with hzPv
  have hzP0 : 0 ≤ zPv := (zPrimeVal_bounds P rand r sk a bv).1
  have hB2 : (2 : ℤ) ≤ P.bigB := bigB_ge_two P hb
  unfold Protocol.stepYShares
  rw [Finset.sum_comm]
  unfold weightedSign
  apply sum_modEq
  intro j _
  rw [← Finset.sum_mul]
  apply Int.ModEq.mul_right
  have hdig : (decompose P.bigB zPv).getD j 0 = digitOf P.bigB zPv j :=
    decompose_getD_eq_digitOf P.bigB hB2 zPv.toNat zPv hzP0 le_rfl j
  have hd0 : 0 ≤ digitOf P.bigB zPv j := Int.emod_nonneg _ (by omega)
  have hd1 : digitOf P.bigB zPv j < P.bigB := Int.emod_lt_of_pos _ (by omega)
  have hcast : ((2 ^ P.b : ℕ) : ℤ) = P.bigB := by
    unfold PublicParameters.bigB
    push_cast
    ring
  have hrow : ((decompose P.bigB zPv).getD j 0).toNat < 2 ^ P.b := by
    rw [hdig]
    omega
  have hrowval : ((((decompose P.bigB zPv).getD j 0).toNat : ℕ) : ℤ) =
      digitOf P.bigB zPv j := by
    rw [hdig] at hrow ⊢
    omega
  unfold Protocol.signTable PreprocessedGate.build
  have hif : ∀ i ∈ Finset.range P.n,
      (if ((decompose P.bigB zPv).getD j 0).toNat < 2 ^ P.b then
        share (SignFunction.apply (((decompose P.bigB zPv).getD j 0).toNat : ℤ)
          (Protocol.rDigits P r j)) P.n (P.d + 1)
          (rand.signRand j (((decompose P.bigB zPv).getD j 0).toNat)) i
      else 0) =
        share (SignFunction.apply (digitOf P.bigB zPv j)
          (Protocol.rDigits P r j)) P.n (P.d + 1)
          (rand.signRand j (((decompose P.bigB zPv).getD j 0).toNat)) i := by
    intro i _
    rw [if_pos hrow, hrowval]
  rw [Finset.sum_congr rfl hif]
  have happly : SignFunction.apply (digitOf P.bigB zPv j) (Protocol.rDigits P r j) =
      (digitOf P.bigB zPv j - digitOf P.bigB r j).sign := by
    unfold SignFunction.apply Protocol.rDigits
    rw [decompose_getD_eq_digitOf P.bigB hB2 r.toNat r hr0 le_rfl j]
  rw [happly]
  have hD : P.bigD = (2 : ℤ) ^ (P.d + 1) := rfl
  rw [hD]
  exact sum_share_modEq_int _ P.n (P.d + 1)
    (rand.signRand j (((decompose P.bigB zPv).getD j 0).toNat)) hn

theorem yPrimeVal_eq (P : PublicParameters) (rand : DealerRandomness)
    (s r : ℤ) (sk a : ℕ → ℤ) (bv : ℤ) (hn : 1 ≤ P.n) :
    Protocol.yPrimeVal P rand s r sk a bv =
      ((∑ i ∈ Finset.range P.n, Protocol.stepYShares P rand r sk a bv i) + s) %
        P.bigD := by
  unfold Protocol.yPrimeVal reveal Protocol.stepYPrimeShares
  have hD : P.bigD = (2 : ℤ) ^ (P.d + 1) := rfl
  rw [← hD, ← Finset.sum_int_mod, Finset.sum_add_distrib]
  have hs : (∑ i ∈ Finset.range P.n, Protocol.sShare P rand s i) ≡ s [ZMOD P.bigD] := by
    have h := sum_share_modEq_int s P.n (P.d + 1) rand.sRand hn
    rwa [← hD] at h
  exact (hs.add_left (∑ i ∈ Finset.range P.n, Protocol.stepYShares P rand r sk a bv i) : _)

theorem yPrimeVal_bounds (P : PublicParameters) (rand : DealerRandomness)
    (s r : ℤ) (sk a : ℕ → ℤ) (bv : ℤ) :
    0 ≤ Protocol.yPrimeVal P rand s r sk a bv ∧
      Protocol.yPrimeVal P rand s r sk a bv < P.bigD := by
  unfold Protocol.yPrimeVal reveal
  have hD : (0 : ℤ) < 2 ^ (P.d + 1) := by positivity
  exact ⟨Int.emod_nonneg _ (by omega), Int.emod_lt_of_pos _ hD⟩

theorem stepU_sum_modEq (P : PublicParameters) (rand : DealerRandomness)
    (s r : ℤ) (sk a : ℕ → ℤ) (bv : ℤ) (hn : 1 ≤ P.n) :
    (∑ i ∈ Finset.range P.n, Protocol.stepUShares P rand s r sk a bv i) ≡
      LessThanZeroFunction.apply P.bigD (Protocol.yPrimeVal P rand s r sk a bv) s
        [ZMOD P.p] := by
  obtain ⟨hy0, hy1⟩ := yPrimeVal_bounds P rand s r sk a bv
  have hcast : ((2 ^ (P.d + 1) : ℕ) : ℤ) = P.bigD := by
    unfold PublicParameters.bigD
    push_cast
    ring
  have hrow : (Protocol.yPrimeVal P rand s r sk a bv).toNat < 2 ^ (P.d + 1) := by
    omega
  have hrowval : (((Protocol.yPrimeVal P rand s r sk a bv).toNat : ℕ) : ℤ) =
      Protocol.yPrimeVal P rand s r sk a bv := by
    omega
  unfold Protocol.stepUShares Protocol.ltzTable PreprocessedGate.build
  have hif : ∀ i ∈ Finset.range P.n,
      (if (Protocol.yPrimeVal P rand s r sk a bv).toNat < 2 ^ (P.d + 1) then
        share (LessThanZeroFunction.apply P.bigD
            (((Protocol.yPrimeVal P rand s r sk a bv).toNat : ℕ) : ℤ) s) P.n P.m
          (rand.ltzRand ((Protocol.yPrimeVal P rand s r sk a bv).toNat)) i
      else 0) =
        share (LessThanZeroFunction.apply P.bigD
            (Protocol.yPrimeVal P rand s r sk a bv) s) P.n P.m
          (rand.ltzRand ((Protocol.yPrimeVal P rand s r sk a bv).toNat)) i := by
    intro i _
    rw [if_pos hrow, hrowval]
  rw [Finset.sum_congr rfl hif]
  have hp : P.p = (2 : ℤ) ^ P.m := rfl
  rw [hp]
  exact sum_share_modEq_int _ P.n P.m
    (rand.ltzRand ((Protocol.yPrimeVal P rand s r sk a bv).toNat)) hn

theorem ltz_value_indicator (P : PublicParameters) (rand : DealerRandomness)
    (s r : ℤ) (sk a : ℕ → ℤ) (bv : ℤ) (hn : 1 ≤ P.n) (hb : 1 ≤ P.b)
    (hr0 : 0 ≤ r) (hr1 : r < P.bigL) (hld : P.l ≤ P.b * P.d) :
    LessThanZeroFunction.apply P.bigD (Protocol.yPrimeVal P rand s r sk a bv) s =
      if Protocol.zPrimeVal P rand r sk a bv < r then 1 else 0 := by
  have hB2 : (2 : ℤ) ≤ P.bigB := bigB_ge_two P hb
  obtain ⟨hz0, hz1⟩ := zPrimeVal_bounds P rand r sk a bv
  have hLB : P.bigL ≤ P.bigB ^ P.d := by
    unfold PublicParameters.bigL PublicParameters.bigB
    rw [← pow_mul]
    exact pow_le_pow_right₀ (by norm_num) hld
  have hspec := weightedSign_spec P.bigB hB2 P.d (Protocol.zPrimeVal P rand r sk a bv) r
    hz0 (by omega) hr0 (by omega)
  have hY := stepY_sum_modEq P rand r sk a bv hn hb hr0
  have hyP := yPrimeVal_eq P rand s r sk a bv hn
  set W := weightedSign P.bigB P.d (Protocol.zPrimeVal P rand r sk a bv) r with hWdef
  set Ytot := ∑ i ∈ Finset.range P.n, Protocol.stepYShares P rand r sk a bv i with hYdef
  have hsub : (Protocol.yPrimeVal P rand s r sk a bv - s) % P.bigD = W % P.bigD := by
    rw [hyP]
    have h1 : ((Ytot + s) % P.bigD - s) ≡ (Ytot + s) - s [ZMOD P.bigD] :=
      (emod_modEq _ _).sub_right s
    have h2 : ((Ytot + s) - s : ℤ) = Ytot := by ring
    calc ((Ytot + s) % P.bigD - s) % P.bigD = ((Ytot + s) - s) % P.bigD := h1
    _ = Ytot % P.bigD := by rw [h2]
    _ = W % P.bigD := hY
  unfold LessThanZeroFunction.apply
  rw [hsub]
  have hiff : (P.bigD / 2 ≤ W % P.bigD) ↔ Protocol.zPrimeVal P rand r sk a bv < r := by
    have h := emod_big_half_iff P.d W hspec.1
    have hD : P.bigD = (2 : ℤ) ^ (P.d + 1) := rfl
    rw [hD]
    exact h.trans hspec.2.1
  by_cases hc : Protocol.zPrimeVal P rand r sk a bv < r
  · rw [if_pos (hiff.mpr hc), if_pos hc]
  · rw [if_neg (fun hcon => hc (hiff.mp hcon)), if_neg hc]

theorem stepE_sum_modEq (P : PublicParameters) (rand : DealerRandomness)
    (s r : ℤ) (sk a : ℕ → ℤ) (bv : ℤ) (hn : 1 ≤ P.n) (hb : 1 ≤ P.b)
    (hr0 : 0 ≤ r) (hr1 : r < P.bigL) (hld : P.l ≤ P.b * P.d) (hlm : P.l + P.m = P.k) :
    (∑ i ∈ Finset.range P.n, Protocol.stepEShares P rand s r sk a bv i) ≡
      Protocol.zPrimeVal P rand r sk a bv - r +
        (if Protocol.zPrimeVal P rand r sk a bv < r then 1 else 0) * P.bigL
      [ZMOD P.q] := by
  unfold Protocol.stepEShares
  rw [Finset.sum_add_distrib, Finset.sum_add_distrib]
  have hA : (∑ i ∈ Finset.range P.n,
      (if i = 0 then Protocol.zPrimeVal P rand r sk a bv else 0)) =
      Protocol.zPrimeVal P rand r sk a bv := by
    rw [Finset.sum_eq_single_of_mem 0 (Finset.mem_range.mpr (by omega))]
    · rw [if_pos rfl]
    · intro c _ hc
      rw [if_neg hc]
  have hB : (∑ i ∈ Finset.range P.n, (-(Protocol.rShare P rand r i)) % P.q) ≡
      -r [ZMOD P.q] := by
    have h1 : (∑ i ∈ Finset.range P.n, (-(Protocol.rShare P rand r i)) % P.q) ≡
        (∑ i ∈ Finset.range P.n, -(Protocol.rShare P rand r i)) [ZMOD P.q] :=
      sum_modEq _ _ _ _ (fun i _ => emod_modEq _ _)
    rw [Finset.sum_neg_distrib] at h1
    refine h1.trans ?_
    exact ((sum_share_modEq_int r P.n P.k rand.rRand hn).neg : _)
  have hC : (∑ i ∈ Finset.range P.n,
      Protocol.stepUShares P rand s r sk a bv i * P.bigL) ≡
      (if Protocol.zPrimeVal P rand r sk a bv < r then 1 else 0) * P.bigL
      [ZMOD P.q] := by
    rw [← Finset.sum_mul]
    have hU := stepU_sum_modEq P rand s r sk a bv hn
    have hmul := hU.mul_right' (c := P.bigL)
    have hq : P.p * P.bigL = P.q := by
      unfold PublicParameters.p PublicParameters.bigL PublicParameters.q
      rw [← pow_add]
      congr 1
      omega
    rw [hq] at hmul
    refine hmul.trans ?_
    rw [ltz_value_indicator P rand s r sk a bv hn hb hr0 hr1 hld]
  rw [hA]
  have := Int.ModEq.add (Int.ModEq.add (Int.ModEq.refl
    (Protocol.zPrimeVal P rand r sk a bv)) hB) hC
  refine this.trans ?_
  have heq : (Protocol.zPrimeVal P rand r sk a bv + -r +
      (if Protocol.zPrimeVal P rand r sk a bv < r then 1 else 0) * P.bigL) =
      (Protocol.zPrimeVal P rand r sk a bv - r +
      (if Protocol.zPrimeVal P rand r sk a bv < r then 1 else 0) * P.bigL) := by
    ring
  rw [heq]

theorem oPrimeVal_eq_emod (P : PublicParameters) (rand : DealerRandomness)
    (s r : ℤ) (sk a : ℕ → ℤ) (bv : ℤ) :
    Protocol.oPrimeVal P rand s r sk a bv =
      ((∑ i ∈ Finset.range P.n, Protocol.stepZ P rand sk a bv i) -
        (∑ i ∈ Finset.range P.n, Protocol.stepEShares P rand s r sk a bv i)) % P.q := by
  unfold Protocol.oPrimeVal reveal Protocol.stepOPrimeShares
  have hq : P.q = (2 : ℤ) ^ P.k := rfl
  rw [← hq, ← Finset.sum_int_mod, Finset.sum_add_distrib]
  have h1 : (∑ i ∈ Finset.range P.n,
      (-(Protocol.stepEShares P rand s r sk a bv i)) % P.q) ≡
      -(∑ i ∈ Finset.range P.n, Protocol.stepEShares P rand s r sk a bv i)
      [ZMOD P.q] := by
    have h := sum_modEq (Finset.range P.n)
      (fun i => (-(Protocol.stepEShares P rand s r sk a bv i)) % P.q)
      (fun i => -(Protocol.stepEShares P rand s r sk a bv i)) P.q
      (fun i _ => emod_modEq _ _)
    rwa [Finset.sum_neg_distrib] at h
  have h2 := h1.add_left (∑ i ∈ Finset.range P.n, Protocol.stepZ P rand sk a bv i)
  refine Eq.trans h2 ?_
  rw [sub_eq_add_neg]

theorem params_l_le_bd (P : PublicParameters) (hb : 1 ≤ P.b) : P.l ≤ P.b * P.d := by
  have h1 := Nat.div_add_mod (P.l + P.b - 1) P.b
  have h2 : (P.l + P.b - 1) % P.b < P.b := Nat.mod_lt _ (by omega)
  unfold PublicParameters.d
  generalize hq : (P.l + P.b - 1) / P.b = Q at h1 ⊢
  generalize hm2 : (P.l + P.b - 1) % P.b = Mr at h1 h2
  generalize hw : P.b * Q = W at h1 ⊢
  omega

theorem protocol_msg_eq (P : PublicParameters) (rand : DealerRandomness)
    (s r err msg : ℤ) (sk a : ℕ → ℤ)
    (hn : 1 ≤ P.n) (hm : 1 ≤ P.m) (hmk : P.m < P.k) (hb : 1 ≤ P.b)
    (hr0 : 0 ≤ r) (hr1 : r < P.bigL)
    (herr0 : 0 ≤ err) (herr1 : 2 * err < P.bigL)
    (hmsg0 : 0 ≤ msg) (hmsg1 : msg < P.p) :
    round_div (Protocol.oPrimeVal P rand s r sk a
      (LweScheme.encrypt_b P.m P.k P.lwe_dimension sk a err msg)) P.bigL = msg := by
  set bv := LweScheme.encrypt_b P.m P.k P.lwe_dimension sk a err msg with hbv
  have hl1 : 1 ≤ P.l := by
    unfold PublicParameters.l
    omega
  have hlk : P.l ≤ P.k := by
    unfold PublicParameters.l
    omega
  have hlm : P.l + P.m = P.k := by
    unfold PublicParameters.l
    omega
  have hld := params_l_le_bd P hb
  have hLpos : (0 : ℤ) < P.bigL := by
    unfold PublicParameters.bigL
    positivity
  have hppos : (0 : ℤ) < P.p := by
    unfold PublicParameters.p
    positivity
  have hqpos : (0 : ℤ) < P.q := by
    unfold PublicParameters.q
    positivity
  have hqLp : P.q = P.bigL * P.p := by
    unfold PublicParameters.q PublicParameters.bigL PublicParameters.p
    rw [← pow_add]
    congr 1
    omega
  have hhalf2 : (2 : ℤ) ^ (P.l - 1) * 2 = P.bigL := by
    unfold PublicParameters.bigL
    rw [← pow_succ]
    congr 1
    omega
  have hhalf0 : (0 : ℤ) < 2 ^ (P.l - 1) := by positivity
  set Ztot := ∑ i ∈ Finset.range P.n, Protocol.stepZ P rand sk a bv i with hZtot
  set Etot := ∑ i ∈ Finset.range P.n, Protocol.stepEShares P rand s r sk a bv i with hEtot
  -- Step 1: Ztot ≡ err + L*msg + 2^(l-1)  (mod q)
  have hZ := stepZ_sum_modEq P rand sk a bv hn
  have hqp : (2 ^ P.k : ℤ) / 2 ^ P.m = P.bigL := by
    rw [pow_int_ediv_pow _ _ (by omega)]
    rfl
  have hbvm : bv ≡ -(dotR P.lwe_dimension a sk) + err + P.bigL * msg [ZMOD P.q] := by
    rw [hbv]
    unfold LweScheme.encrypt_b
    rw [hqp]
    exact emod_modEq _ _
  have hZ2 : Ztot ≡ err + P.bigL * msg + 2 ^ (P.l - 1) [ZMOD P.q] := by
    refine hZ.trans ?_
    have h := (hbvm.add_right (2 ^ (P.l - 1))).add_right (dotR P.lwe_dimension a sk)
    refine h.trans ?_
    have : -(dotR P.lwe_dimension a sk) + err + P.bigL * msg + 2 ^ (P.l - 1) +
        dotR P.lwe_dimension a sk = err + P.bigL * msg + 2 ^ (P.l - 1) := by
      ring
    rw [this]
  -- Step 2: Etot ≡ Ztot % L  (mod q)
  set zeta := Ztot % P.bigL with hzeta
  have hzeta0 : 0 ≤ zeta := Int.emod_nonneg _ (by omega)
  have hzeta1 : zeta < P.bigL := Int.emod_lt_of_pos _ hLpos
  have hzP : Protocol.zPrimeVal P rand r sk a bv = (zeta + r) % P.bigL := by
    rw [zPrimeVal_eq P rand r sk a bv hn hlk, hzeta]
    rw [Int.emod_add_emod]
  have hmask := mask_unwrap P.bigL zeta r hLpos hzeta0 hzeta1 hr0 hr1
  have hE := stepE_sum_modEq P rand s r sk a bv hn hb hr0 hr1 hld hlm
  have hE2 : Etot ≡ zeta [ZMOD P.q] := by
    refine hE.trans ?_
    rw [hzP]
    rw [hmask]
  -- Step 3: o' = L * ((Ztot / L) % p)
  have hoP := oPrimeVal_eq_emod P rand s r sk a bv
  have hsub : (Ztot - Etot) % P.q = (Ztot - zeta) % P.q :=
    (Int.ModEq.refl Ztot).sub hE2
  have hfloor : Ztot - zeta = P.bigL * (Ztot / P.bigL) := by
    have h := Int.emod_def Ztot P.bigL
    rw [hzeta]
    linarith [h]
  have hoP2 : Protocol.oPrimeVal P rand s r sk a bv =
      P.bigL * (Ztot / P.bigL % P.p) := by
    rw [hoP, hsub, hfloor, hqLp, Int.mul_emod_mul_of_pos _ _ hLpos]
  -- Step 4: Ztot / L ≡ msg (mod p), exactly msg after reduction
  obtain ⟨T, hT⟩ := hZ2.dvd
  have hZtot_eq : Ztot = (err + 2 ^ (P.l - 1)) + P.bigL * (msg - P.p * T) := by
    have hq' : P.q * T = P.bigL * (P.p * T) := by
      rw [hqLp]
      ring
    have : Ztot - (err + P.bigL * msg + 2 ^ (P.l - 1)) = -(P.q * T) := by omega
    rw [hq'] at this
    linarith [this]
  have hdiv : Ztot / P.bigL = msg - P.p * T := by
    rw [hZtot_eq, Int.add_mul_ediv_left _ _ (by omega)]
    have hsmall : (err + 2 ^ (P.l - 1)) / P.bigL = 0 := by
      apply Int.ediv_eq_zero_of_lt (by omega)
      omega
    rw [hsmall]
    ring
  have hmod : Ztot / P.bigL % P.p = msg := by
    rw [hdiv]
    have : msg - P.p * T = msg + P.p * (-T) := by ring
    rw [this, Int.add_mul_emod_self_left, Int.emod_eq_of_lt hmsg0 hmsg1]
  rw [hoP2, hmod, round_div_mul_cancel _ _ hLpos]

/-- Claim C1: in every honest run of the single-process reference protocol
with `N ≥ 1` parties — dealer preprocessing with secret `s ∈ [0, D)`, mask
`r ∈ [0, L)`, additively shared LWE key, and a ciphertext `(a, b)`
encrypting `msg` with valid noise (`0 ≤ err < q/(2p)`) — `Protocol::decrypt`
returns the same plaintext as the non-distributed `LweScheme::decrypt`
(both equal `msg`), and the MAC batch check over the opened share matrix
`(z', y', o')` accepts, for every MAC security parameter, challenge, mask
randomness, and additive sharing of the global key. -/
theorem protocol_honest_run_correct (P : PublicParameters)
    (rand : DealerRandomness) (s r err msg : ℤ) (sk a : ℕ → ℤ) (bv : ℤ)
    (hn : 1 ≤ P.n) (hm : 1 ≤ P.m) (hmk : P.m < P.k) (hb : 1 ≤ P.b)
    (hs0 : 0 ≤ s) (hs1 : s < P.bigD) (hr0 : 0 ≤ r) (hr1 : r < P.bigL)
    (herr0 : 0 ≤ err) (herr1 : 2 * err < P.bigL)
    (hmsg0 : 0 ≤ msg) (hmsg1 : msg < P.p)
    (hbv : bv = LweScheme.encrypt_b P.m P.k P.lwe_dimension sk a err msg) :
    (Protocol.decrypt P rand s r sk a bv).msg =
      LweScheme.decrypt P.m P.k P.lwe_dimension sk a bv ∧
    (Protocol.decrypt P rand s r sk a bv).msg = msg ∧
    (∀ ms : ℕ, ∀ alpha : ℤ, ∀ chi alpha_shares rmask : ℕ → ℤ,
      ∀ rrand : ℕ → ℕ → ℤ,
      (∑ i ∈ Finset.range P.n, alpha_shares i) ≡ alpha
        [ZMOD ((2 : ℤ) ^ (P.k + ms))] →
      (batch_check P.k ms P.n 3 chi
        (batch_open_x_tilde P.k ms P.n
          (batch_open_x_tilde_shares P.k ms P.n
            (Protocol.openedShares (Protocol.decrypt P rand s r sk a bv)) rmask rrand))
        alpha_shares
        (batch_open_m_tilde P.k ms alpha
          (batch_open_x_tilde_shares P.k ms P.n
            (Protocol.openedShares (Protocol.decrypt P rand s r sk a bv))
            rmask rrand))).isSome) := by
  have htracemsg : (Protocol.decrypt P rand s r sk a bv).msg =
      round_div (Protocol.oPrimeVal P rand s r sk a bv) P.bigL := rfl
  have hmain : (Protocol.decrypt P rand s r sk a bv).msg = msg := by
    rw [htracemsg, hbv]
    exact protocol_msg_eq P rand s r err msg sk a hn hm hmk hb hr0 hr1 herr0 herr1
      hmsg0 hmsg1
  have hlwe : LweScheme.decrypt P.m P.k P.lwe_dimension sk a bv = msg := by
    rw [hbv]
    exact lwe_decrypt_encrypt_exact P.m P.k P.lwe_dimension sk a err msg hmk
      herr0 herr1 hmsg0 hmsg1
  refine ⟨?_, hmain, ?_⟩
  · rw [hmain, hlwe]
  · intro ms alpha chi alpha_shares rmask rrand halpha
    rw [batch_open_check_roundtrip P.k ms P.n 3 alpha
      (Protocol.openedShares (Protocol.decrypt P rand s r sk a bv)) rmask rrand
      chi alpha_shares halpha]
    rfl

/-- Witness for C1: two parties, `k = 2`, `m = 1`, `b = 1`, dimension 1,
all-zero secrets, masks and randomness; the protocol output, the direct
LWE decryption and the plaintext `0` coincide and the MAC post-pass
accepts. -/
theorem protocol_honest_run_correct_witness :
    ((Protocol.decrypt ⟨2, 2, 1, 1, 1⟩
        ⟨fun _ => 0, fun _ => 0, fun _ _ => 0, fun _ _ _ => 0, fun _ _ => 0⟩
        0 0 (fun _ => 0) (fun _ => 0)
        (LweScheme.encrypt_b 1 2 1 (fun _ => 0) (fun _ => 0) 0 0)).msg =
      LweScheme.decrypt 1 2 1 (fun _ => 0) (fun _ => 0)
        (LweScheme.encrypt_b 1 2 1 (fun _ => 0) (fun _ => 0) 0 0)) ∧
    (Protocol.decrypt ⟨2, 2, 1, 1, 1⟩
        ⟨fun _ => 0, fun _ => 0, fun _ _ => 0, fun _ _ _ => 0, fun _ _ => 0⟩
        0 0 (fun _ => 0) (fun _ => 0)
        (LweScheme.encrypt_b 1 2 1 (fun _ => 0) (fun _ => 0) 0 0)).msg = 0 ∧
    (batch_check 2 1 2 3 (fun _ => 0)
      (batch_open_x_tilde 2 1 2
        (batch_open_x_tilde_shares 2 1 2
          (Protocol.openedShares (Protocol.decrypt ⟨2, 2, 1, 1, 1⟩
            ⟨fun _ => 0, fun _ => 0, fun _ _ => 0, fun _ _ _ => 0, fun _ _ => 0⟩
            0 0 (fun _ => 0) (fun _ => 0)
            (LweScheme.encrypt_b 1 2 1 (fun _ => 0) (fun _ => 0) 0 0)))
          (fun _ => 0) (fun _ _ => 0)))
      (fun _ => 0)
      (batch_open_m_tilde 2 1 0
        (batch_open_x_tilde_shares 2 1 2
          (Protocol.openedShares (Protocol.decrypt ⟨2, 2, 1, 1, 1⟩
            ⟨fun _ => 0, fun _ => 0, fun _ _ => 0, fun _ _ _ => 0, fun _ _ => 0⟩
            0 0 (fun _ => 0) (fun _ => 0)
            (LweScheme.encrypt_b 1 2 1 (fun _ => 0) (fun _ => 0) 0 0)))
          (fun _ => 0) (fun _ _ => 0)))).isSome := by
  have h := protocol_honest_run_correct ⟨2, 2, 1, 1, 1⟩
    ⟨fun _ => 0, fun _ => 0, fun _ _ => 0, fun _ _ _ => 0, fun _ _ => 0⟩
    0 0 0 0 (fun _ => 0) (fun _ => 0)
    (LweScheme.encrypt_b 1 2 1 (fun _ => 0) (fun _ => 0) 0 0)
    (by decide) (by decide) (by decide) (by decide)
    (by decide) (by decide) (by decide) (by decide)
    (by decide) (by decide) (by decide) (by decide) rfl
  exact ⟨h.1, h.2.1, h.2.2 1 0 (fun _ => 0) (fun _ => 0) (fun _ => 0) (fun _ _ => 0)
    (by decide)⟩

/-! ### Stored residues (party.rs step one, lwe_scheme.rs keygen) -/

/-- The `z` computed and stored by `Party::execute_step_one` (party.rs):
`z = [party=0]*(b + 2^(l-1)) - ((-<a, sk_i>) mod q)`, written with
`set_z` without any reduction. -/
def Party.executeStepOneZ (party_number : ℕ) (P : PublicParameters)
    (a sk_i : ℕ → ℤ) (b : ℤ) : ℤ :=
  (if party_number = 0 then b + 2 ^ (P.l - 1) else 0) -
    (-(dotR P.lwe_dimension a sk_i)) % P.q

/-- Counterexample to C9 as stated: with `k = 2`, dimension 1, `a = (1)`,
`sk_1 = (1)` and `b = 0`, party 1 stores `z = -3`, a negative value — the
stored `z` share is not the floor-mod reduction of its defining expression
into `[0, q)`. -/
theorem step_one_z_negative_counterexample :
    Party.executeStepOneZ 1 ⟨2, 2, 1, 1, 1⟩ (fun _ => 1) (fun _ => 1) 0 = -3 ∧
      ¬(0 ≤ (-3 : ℤ)) := by
  constructor
  · decide
  · decide

/-- Claim C9 (amended): every value the core stores through a `mod_floor`
reduction is non-negative and below its modulus — the sampled and final
additive shares (when the sampler output is in range), the broadcast
`z'`, `y'` and `o'` round values, and the keygen public vector `b` (which
is reduced modulo `p`, the plaintext modulus, not `q`); but the round-local
`z` of step one is stored unreduced and can be negative. -/
theorem mod_floor_residue_ranges (P : PublicParameters) (rand : DealerRandomness)
    (s r : ℤ) (sk a : ℕ → ℤ) (bv : ℤ) (x : ℤ) (N e : ℕ) (srand : ℕ → ℤ)
    (pe dim : ℕ) (skv : ℕ → ℤ) (bigA : ℕ → ℕ → ℤ) (evec : ℕ → ℤ)
    (hrand : ∀ j, 0 ≤ srand j ∧ srand j < 2 ^ e) :
    (∀ i, 0 ≤ share x N e srand i ∧ share x N e srand i < 2 ^ e) ∧
    (∀ i, 0 ≤ Protocol.stepZPrimeShares P rand r sk a bv i ∧
      Protocol.stepZPrimeShares P rand r sk a bv i < P.bigL) ∧
    (∀ i, 0 ≤ Protocol.stepYPrimeShares P rand s r sk a bv i ∧
      Protocol.stepYPrimeShares P rand s r sk a bv i < P.bigD) ∧
    (∀ i, 0 ≤ Protocol.stepOPrimeShares P rand s r sk a bv i ∧
      Protocol.stepOPrimeShares P rand s r sk a bv i < P.q) ∧
    (∀ row, 0 ≤ LweScheme.keygen_b pe dim skv bigA evec row ∧
      LweScheme.keygen_b pe dim skv bigA evec row < 2 ^ pe) := by
  have h2e : (0 : ℤ) < 2 ^ e := by positivity
  have hL : (0 : ℤ) < P.bigL := by
    unfold PublicParameters.bigL
    positivity
  have hD : (0 : ℤ) < P.bigD := by
    unfold PublicParameters.bigD
    positivity
  have hq : (0 : ℤ) < P.q := by
    unfold PublicParameters.q
    positivity
  have hpe : (0 : ℤ) < 2 ^ pe := by positivity
  refine ⟨?_, ?_, ?_, ?_, ?_⟩
  · intro i
    unfold share
    split
    · exact hrand i
    · exact ⟨Int.emod_nonneg _ (by omega), Int.emod_lt_of_pos _ h2e⟩
  · intro i
    unfold Protocol.stepZPrimeShares
    exact ⟨Int.emod_nonneg _ (by omega), Int.emod_lt_of_pos _ hL⟩
  · intro i
    unfold Protocol.stepYPrimeShares
    exact ⟨Int.emod_nonneg _ (by omega), Int.emod_lt_of_pos _ hD⟩
  · intro i
    unfold Protocol.stepOPrimeShares
    exact ⟨Int.emod_nonneg _ (by omega), Int.emod_lt_of_pos _ hq⟩
  · intro row
    unfold LweScheme.keygen_b
    exact ⟨Int.emod_nonneg _ (by omega), Int.emod_lt_of_pos _ hpe⟩

/-- Witness for the amended C9, projected at party 0 and row 0 of an
all-zero concrete instance. -/
theorem mod_floor_residue_ranges_witness :
    (0 ≤ share 1 2 1 (fun _ => 0) 0 ∧ share 1 2 1 (fun _ => 0) 0 < 2 ^ 1) ∧
    (0 ≤ Protocol.stepZPrimeShares ⟨2, 2, 1, 1, 1⟩
        ⟨fun _ => 0, fun _ => 0, fun _ _ => 0, fun _ _ _ => 0, fun _ _ => 0⟩
        0 (fun _ => 0) (fun _ => 0) 0 0 ∧
      Protocol.stepZPrimeShares ⟨2, 2, 1, 1, 1⟩
        ⟨fun _ => 0, fun _ => 0, fun _ _ => 0, fun _ _ _ => 0, fun _ _ => 0⟩
        0 (fun _ => 0) (fun _ => 0) 0 0 <
        (⟨2, 2, 1, 1, 1⟩ : PublicParameters).bigL) ∧
    (0 ≤ Protocol.stepOPrimeShares ⟨2, 2, 1, 1, 1⟩
        ⟨fun _ => 0, fun _ => 0, fun _ _ => 0, fun _ _ _ => 0, fun _ _ => 0⟩
        0 0 (fun _ => 0) (fun _ => 0) 0 0 ∧
      Protocol.stepOPrimeShares ⟨2, 2, 1, 1, 1⟩
        ⟨fun _ => 0, fun _ => 0, fun _ _ => 0, fun _ _ _ => 0, fun _ _ => 0⟩
        0 0 (fun _ => 0) (fun _ => 0) 0 0 <
        (⟨2, 2, 1, 1, 1⟩ : PublicParameters).q) ∧
    (0 ≤ LweScheme.keygen_b 1 1 (fun _ => 0) (fun _ _ => 0) (fun _ => 0) 0 ∧
      LweScheme.keygen_b 1 1 (fun _ => 0) (fun _ _ => 0) (fun _ => 0) 0 < 2 ^ 1) := by
  have h := mod_floor_residue_ranges ⟨2, 2, 1, 1, 1⟩
    ⟨fun _ => 0, fun _ => 0, fun _ _ => 0, fun _ _ _ => 0, fun _ _ => 0⟩
    0 0 (fun _ => 0) (fun _ => 0) 0 1 2 1 (fun _ => 0) 1 1 (fun _ => 0)
    (fun _ _ => 0) (fun _ => 0) (fun _ => by norm_num)
  exact ⟨h.1 0, h.2.1 0, h.2.2.2.1 0, h.2.2.2.2 0⟩

/-! ### Party step five (party.rs) -/

/-- The party-to-party message envelope, restricted to the payload fields
the step functions below touch (`ProtocolTransferredData` in the source has
further always-`None` fields). -/
structure ProtocolTransferredData where
  z_prime : Option ℤ
  y_prime : Option ℤ
  o_prime : Option ℤ
  mac_z : Option ℤ

/-- `ProtocolTransferredData::empty()`: every field `None`. -/
def ProtocolTransferredData.empty : ProtocolTransferredData :=
  ⟨none, none, none, none⟩

/-- `Party::execute_step_five` (party.rs): fold the received MAC-check
contributions into `z_sum`, add the party's own `mac_z` — and then return
the empty envelope.  The computed `z_sum` is dropped: the source performs
no comparison with zero, takes no accept/reject decision, and neither
returns a plaintext nor marks the job failed. -/
def Party.executeStepFive (own_mac_z : ℤ) (incoming : List ℤ) :
    ProtocolTransferredData :=
  let z_sum := incoming.foldl (fun acc z => acc + z) 0 + own_mac_z
  ProtocolTransferredData.empty

/-- The plaintext `Party::execute_step_four` computes (party.rs, lines
419-425): `round_div(reveal(o'-shares, k), L)` — produced before any
MAC-check contribution has been received, hence independent of the MAC
outcome. -/
def Party.executeStepFourMsg (P : PublicParameters) (o_prime_all : ℕ → ℤ) : ℤ :=
  round_div (reveal o_prime_all P.n P.k) P.bigL

/-- Claim C4 (code-bug evidence): `execute_step_five` returns the empty
envelope for every input — in particular at the failing input
`own mac_z = 1`, one incoming `z = 0`, where `z_sum = 1 ≢ 0 mod 2^(k+s)`
(shown for `k + s = 144`), the output is identical to that of a passing
run; no acceptance condition is evaluated and no plaintext is withheld. -/
theorem execute_step_five_ignores_mac_sum :
    (∀ own_mac_z : ℤ, ∀ incoming : List ℤ,
      Party.executeStepFive own_mac_z incoming = ProtocolTransferredData.empty) ∧
    (List.foldl (fun acc z => acc + z) 0 [(0 : ℤ)] + 1) % 2 ^ 144 ≠ 0 ∧
    Party.executeStepFive 1 [0] = Party.executeStepFive 0 [0] := by
  refine ⟨fun _ _ => rfl, ?_, rfl⟩
  norm_num

/-- Witness for the step-five theorem at a further concrete input. -/
theorem execute_step_five_ignores_mac_sum_witness :
    Party.executeStepFive 5 [2] = ProtocolTransferredData.empty :=
  execute_step_five_ignores_mac_sum.1 5 [2]
